import Mathlib

/-!
EX_Servo: level-to-angle mapping and stepped servo motion

A shallow embedding of `st::EX_Servo` (`EX_Servo.cpp`, `EX_Servo.h`).

* The object's data members become the fields of the structure `EX_Servo`; the
  `Servo m_Servo` member is represented by its attach state, the only part of
  it the class reads back (`m_Servo.attached()`).
* Every member function becomes a function from the state before the call to
  the state after it together with the list of calls it made, in program
  order, on the external collaborators: `Servo::attach`, `Servo::write`,
  `Servo::detach`, `delay` and `Everything::sendSmartString`.
* C++ `int` values are integers (`Int`) in the range of the target's `int`,
  16 bits wide on the AVR boards and 32 bits wide on the others (`IntWidth`,
  carried by the object); `/` on `int` is `Int.tdiv` (truncation toward zero).
  A `long` result of the library functions `map` and `toInt` is taken exact,
  and its conversion to `int` wraps around (`wrapInt`): at the assignments of
  lines 105 and 139 and at the casts of lines 136 and 137.  The product
  `m_nCurrentDuration * 1000` of line 60 is computed in `int`; where it leaves
  the range C++ leaves the result undefined, and the two's-complement result
  is taken.  The difference of line 59 and the steps of lines 64 and 67 are
  taken exact: with the target in 0..180 they stay in the range of `int`
  unless `m_nOldAngle` lies within 180 of the lowest `int`.
* The `Serial.print` diagnostics guarded by `st::Executor::debug` touch neither
  the object nor the servo and are left out.
* `delay(timeStep / 1.8)` divides in floating point.  The trace records the
  exact quotient truncated (`stepDelay`), as a signed integer: the conversion
  of a negative quotient to the `unsigned long` parameter of `delay` is not
  represented.  `stepDelayFloat` evaluates the same expression in binary
  floating point with round-to-nearest-even, and the two are proved equal on
  the non-negative range of `int`.
* `beSmart` is split in two: `parseCommand` reads the level and the duration
  from the command string with the Arduino `String` operations, and `beSmart`
  is the rest of the member function on the two integers; `beSmartString` is
  the whole member function.
-/

namespace st

/-- One call made on an external collaborator. -/
inductive Event where
  /-- The call `m_Servo.attach(pin)`. -/
  | attach (pin : Fin 256)
  /-- The call `m_Servo.detach()`. -/
  | detach
  /-- The call `m_Servo.write(angle)`. -/
  | write (angle : Int)
  /-- The call `delay(ms)`. -/
  | delay (ms : Int)
  /-- The call `Everything::sendSmartString(msg)`. -/
  | send (msg : String)
  deriving DecidableEq, Repr

/-- The width of the type `int` on the target: 16 bits on the AVR boards (the
Mega the source names), 32 bits on the other Arduino targets. -/
inductive IntWidth where
  | w16
  | w32
  deriving DecidableEq, Repr

/-- The number of bits of `int`. -/
def IntWidth.bits : IntWidth → Nat
  | IntWidth.w16 => 16
  | IntWidth.w32 => 32

/-- The least value of `int` (`INT_MIN`). -/
def intMin (w : IntWidth) : Int :=
  -(2 ^ (w.bits - 1))

/-- The greatest value of `int` (`INT_MAX`). -/
def intMax (w : IntWidth) : Int :=
  2 ^ (w.bits - 1) - 1

/-- Conversion of an integer value to `int`: a value in the range of `int` is
unchanged, any other value is reduced modulo `2 ^ bits` into the range. -/
def wrapInt (w : IntWidth) (x : Int) : Int :=
  (x + 2 ^ (w.bits - 1)) % 2 ^ w.bits - 2 ^ (w.bits - 1)

/-- Data members of `class EX_Servo` (`EX_Servo.h`, lines 44-53), with the name
held by the base class `Executor`, the attach state of `m_Servo` and the width
of `int` on the target the object is compiled for. -/
structure EX_Servo where
  /-- Width of `int` on the target. -/
  intWidth : IntWidth
  /-- Value returned by `getName()`. -/
  name : String
  /-- Value returned by `m_Servo.attached()`. -/
  servoAttached : Bool
  m_nPinPWM : Fin 256
  m_nCurrentLevel : Int
  m_nOldAngle : Int
  m_nTargetAngle : Int
  m_nCurrentAngle : Int
  m_nCurrentDuration : Int
  m_bDetachAfterMove : Bool
  m_nZeroLevelAngle : Int
  m_nBenjLevelAngle : Int
  deriving DecidableEq, Repr

/-- Modelled from the spec: the Arduino core function `map`, which the class
calls and does not define.  The spec gives it as
`angle = zeroLevelAngle + (level - 0) * (benjLevelAngle - zeroLevelAngle) / (100 - 0)`
in truncating integer arithmetic; the five arguments are in the order of the
call `map(level, 0, 100, zeroLevelAngle, benjLevelAngle)`. -/
def map (x in_min in_max out_min out_max : Int) : Int :=
  out_min + ((x - in_min) * (out_max - out_min)).tdiv (in_max - in_min)

/-- The argument `timeStep / 1.8` of the per-step `delay` call (line 76), as
the whole number of milliseconds `delay` receives: the quotient is taken
exactly and truncated toward zero (`timeStep / 1.8 = timeStep * 10 / 18`).
For a negative `timeStep` the C++ conversion of the quotient to the
`unsigned long` parameter of `delay` is not defined by the language; the
truncated quotient is kept.  The code takes the quotient in floating point:
`stepDelayFloat` below is that evaluation, and `stepDelayFloat_double` and
`stepDelayFloat_single` show that it gives this value for every non-negative
`timeStep` of a 32-bit `int` in IEEE double and of a 16-bit `int` in IEEE
single. -/
def stepDelay (timeStep : Int) : Int :=
  (timeStep * 10).tdiv 18

/-- Lines 43-45 of `writeAngleToPin`: attach the servo unless it is attached. -/
def ensureAttached (s : EX_Servo) : EX_Servo × List Event :=
  if !s.servoAttached then
    ({ s with servoAttached := true }, [Event.attach s.m_nPinPWM])
  else
    (s, [])

/-- Lines 47-52 of `writeAngleToPin`: clamp `m_nTargetAngle` into 0..180. -/
def clampTarget (s : EX_Servo) : EX_Servo :=
  if s.m_nTargetAngle < 0 then
    { s with m_nTargetAngle := 0 }
  else if s.m_nTargetAngle > 180 then
    { s with m_nTargetAngle := 180 }
  else
    s

/-- The signed one-degree increment applied by each iteration of the stepping
loop (lines 63-68): `+1` when `m_nTargetAngle >= m_nOldAngle`, `-1` otherwise. -/
def stepDir (s : EX_Servo) : Int :=
  if s.m_nTargetAngle ≥ s.m_nOldAngle then 1 else -1

/-- The `for` loop of lines 62-77 with `k` iterations left to run: every
iteration moves `m_nCurrentAngle` by one degree in the direction fixed by
`m_nTargetAngle >= m_nOldAngle`, writes it to the servo and waits. -/
def stepLoop (timeStep : Int) : Nat → EX_Servo → EX_Servo × List Event
  | 0, s => (s, [])
  | k + 1, s =>
    let s1 : EX_Servo :=
      if s.m_nTargetAngle ≥ s.m_nOldAngle then
        { s with m_nCurrentAngle := s.m_nCurrentAngle + 1 }
      else
        { s with m_nCurrentAngle := s.m_nCurrentAngle - 1 }
    let r := stepLoop timeStep k s1
    (r.1, Event.write s1.m_nCurrentAngle :: Event.delay (stepDelay timeStep) :: r.2)

/-- Lines 54-78 of `writeAngleToPin`: a single write and a one second settle
delay when there is no distance to travel, the stepping loop otherwise.  The
loop `for (int i = 1; i <= n; ++i)` runs `n` times for `n >= 0`.  In
`timeStep` the product `m_nCurrentDuration * 1000` is an `int`; the difference
in `n` is taken exact. -/
def moveServo (s : EX_Servo) : EX_Servo × List Event :=
  if s.m_nTargetAngle = s.m_nOldAngle then
    (s, [Event.write s.m_nTargetAngle, Event.delay 1000])
  else
    let n : Int := |s.m_nTargetAngle - s.m_nOldAngle|
    let timeStep : Int := (wrapInt s.intWidth (s.m_nCurrentDuration * 1000)).tdiv 100
    stepLoop timeStep n.toNat { s with m_nCurrentAngle := s.m_nOldAngle }

/-- Lines 85-88 of `writeAngleToPin`: detach when `m_bDetachAfterMove` is set. -/
def detachAfterMove (s : EX_Servo) : EX_Servo × List Event :=
  if s.m_bDetachAfterMove then
    ({ s with servoAttached := false }, [Event.detach])
  else
    (s, [])

/-- The private member `EX_Servo::writeAngleToPin` (lines 41-90), the motion
cycle. -/
def writeAngleToPin (s : EX_Servo) : EX_Servo × List Event :=
  let a := ensureAttached s
  let m := moveServo (clampTarget a.1)
  let d := detachAfterMove m.1
  (d.1, a.2 ++ m.2 ++ d.2)

/-- The member `EX_Servo::refresh` (lines 152-155): send the state report. -/
def refresh (s : EX_Servo) : EX_Servo × List Event :=
  (s, [Event.send (s.name ++ " " ++ toString s.m_nCurrentLevel ++ ":" ++
    toString s.m_nTargetAngle ++ ":" ++ toString s.m_nCurrentDuration)])

/-- The constructor `EX_Servo::EX_Servo` (lines 94-107) on a target whose
`int` has width `w`.  `m_Servo()` is a detached servo; `m_nCurrentAngle` is not
initialised by the constructor, so the value it happens to hold is the extra
argument `currentAngle0`.  The `long` result of `map` is converted to the `int`
member `m_nTargetAngle` (line 105). -/
def EX_Servo.new (w : IntWidth) (name : String) (pinPWM : Fin 256) (startingLevel : Int)
    (detachAfterMove : Bool) (servoMoveTime zeroLevelAngle benjLevelAngle : Int)
    (currentAngle0 : Int) : EX_Servo :=
  let targetAngle := wrapInt w (map startingLevel 0 100 zeroLevelAngle benjLevelAngle)
  { intWidth := w
    name := name
    servoAttached := false
    m_nPinPWM := pinPWM
    m_nCurrentLevel := startingLevel
    m_nOldAngle := targetAngle
    m_nTargetAngle := targetAngle
    m_nCurrentAngle := currentAngle0
    m_nCurrentDuration := servoMoveTime.tdiv 1000
    m_bDetachAfterMove := detachAfterMove
    m_nZeroLevelAngle := zeroLevelAngle
    m_nBenjLevelAngle := benjLevelAngle }

/-- The member `EX_Servo::init` (lines 115-119). -/
def init (s : EX_Servo) : EX_Servo × List Event :=
  let w := writeAngleToPin s
  let r := refresh w.1
  (r.1, w.2 ++ r.2)

/-- Lines 136-139 of `EX_Servo::beSmart`: store the level and the duration and
start the new move from the previous target.  The `long` result of `map` is
converted to the `int` member `m_nTargetAngle` (line 139). -/
def acceptCommand (s : EX_Servo) (level duration : Int) : EX_Servo :=
  let s1 := { s with m_nCurrentLevel := level }
  let s2 := { s1 with m_nCurrentDuration := duration }
  let s3 := { s2 with m_nOldAngle := s2.m_nTargetAngle }
  let targetAngle :=
    wrapInt s3.intWidth (map s3.m_nCurrentLevel 0 100 s3.m_nZeroLevelAngle s3.m_nBenjLevelAngle)
  { s3 with m_nTargetAngle := targetAngle }

/-- The member `EX_Servo::beSmart` from line 136 on, where `level` and
`duration` are the two `int` values `int(level.toInt())` and
`int(duration.toInt())` read from the command string. -/
def beSmart (s : EX_Servo) (level duration : Int) : EX_Servo × List Event :=
  let w := writeAngleToPin (acceptCommand s level duration)
  let r := refresh w.1
  (r.1, w.2 ++ r.2)

/-- An operation a caller can invoke on a constructed object. -/
inductive Op where
  | init
  | beSmart (level duration : Int)
  deriving DecidableEq, Repr

/-- Run one operation. -/
def Op.exec (s : EX_Servo) : Op → EX_Servo × List Event
  | Op.init => st.init s
  | Op.beSmart level duration => st.beSmart s level duration

/-- Run a sequence of operations, first to last, collecting the calls made. -/
def run : EX_Servo → List Op → EX_Servo × List Event
  | s, [] => (s, [])
  | s, op :: ops =>
    let r := op.exec s
    let rest := run r.1 ops
    (rest.1, r.2 ++ rest.2)

/-- The angles passed to `Servo::write`, in order. -/
def writes : List Event → List Int
  | [] => []
  | Event.attach _ :: es => writes es
  | Event.detach :: es => writes es
  | Event.write a :: es => a :: writes es
  | Event.delay _ :: es => writes es
  | Event.send _ :: es => writes es

/-- The arguments of the `delay` calls, in order. -/
def delays : List Event → List Int
  | [] => []
  | Event.attach _ :: es => delays es
  | Event.detach :: es => delays es
  | Event.write _ :: es => delays es
  | Event.delay ms :: es => ms :: delays es
  | Event.send _ :: es => delays es

/-- Attach state of the servo after the calls `es`, starting from `b`. -/
def attachedAfter (b : Bool) : List Event → Bool
  | [] => b
  | Event.attach _ :: es => attachedAfter true es
  | Event.detach :: es => attachedAfter false es
  | Event.write _ :: es => attachedAfter b es
  | Event.delay _ :: es => attachedAfter b es
  | Event.send _ :: es => attachedAfter b es

/-- No `write` in `es` happens while the servo is detached, starting from
attach state `b`: each write comes after an attach with no detach between
them (or, when `b` holds, before any detach). -/
def writesAttached (b : Bool) : List Event → Bool
  | [] => true
  | Event.attach _ :: es => writesAttached true es
  | Event.detach :: es => writesAttached false es
  | Event.write _ :: es => b && writesAttached b es
  | Event.delay _ :: es => writesAttached b es
  | Event.send _ :: es => writesAttached b es

/-- The messages passed to `Everything::sendSmartString`, in order. -/
def sends : List Event → List String
  | [] => []
  | Event.attach _ :: es => sends es
  | Event.detach :: es => sends es
  | Event.write _ :: es => sends es
  | Event.delay _ :: es => sends es
  | Event.send msg :: es => msg :: sends es

/-- The accessor `virtual byte getPWMPin() const { return m_nPinPWM; }`
(`EX_Servo.h`, line 74). -/
def getPWMPin (s : EX_Servo) : Fin 256 :=
  s.m_nPinPWM

/-- The accessor `virtual bool getAngle() const { return m_nTargetAngle; }`
(`EX_Servo.h`, line 76).  The declared return type is `bool`, so the `int`
member is converted on return: zero becomes `false`, any other value `true`. -/
def getAngle (s : EX_Servo) : Bool :=
  decide (s.m_nTargetAngle ≠ 0)

/-- The accessor `virtual bool getLevel() const { return m_nCurrentLevel; }`
(`EX_Servo.h`, line 77), with the same conversion of `int` to `bool`. -/
def getLevel (s : EX_Servo) : Bool :=
  decide (s.m_nCurrentLevel ≠ 0)

/-- The accessor `virtual bool getDuration() const { return m_nCurrentDuration; }`
(`EX_Servo.h`, line 78), with the same conversion of `int` to `bool`. -/
def getDuration (s : EX_Servo) : Bool :=
  decide (s.m_nCurrentDuration ≠ 0)

/-- The value of a C++ `bool` read as an integer: `false` is 0, `true` is 1. -/
def boolValue (b : Bool) : Int :=
  if b then 1 else 0

/-- Round a rational to the nearest integer, ties to the even one. -/
def roundHalfEven (y : ℚ) : ℤ :=
  if y - ⌊y⌋ < 1 / 2 then ⌊y⌋
  else if 1 / 2 < y - ⌊y⌋ then ⌊y⌋ + 1
  else if ⌊y⌋ % 2 = 0 then ⌊y⌋ else ⌊y⌋ + 1

/-- Round a rational to the nearest binary floating-point number with `p`
significand bits (24 for IEEE single, 53 for IEEE double), ties to even, with
no bound on the exponent. -/
def roundBinary (p : ℕ) (x : ℚ) : ℚ :=
  if x = 0 then 0
  else roundHalfEven (x / 2 ^ (Int.log 2 |x| - ((p : ℤ) - 1))) * 2 ^ (Int.log 2 |x| - ((p : ℤ) - 1))

/-- Conversion of a floating-point value to an integer type: the fractional
part is discarded. -/
def truncate (x : ℚ) : ℤ :=
  if 0 ≤ x then ⌊x⌋ else ⌈x⌉

/-- The argument `timeStep / 1.8` of the per-step `delay` call (line 76)
evaluated in binary floating point with `p` significand bits: `timeStep` is
converted to floating point, the literal `1.8` is the nearest floating-point
number to 9/5, the quotient is rounded to nearest, and the result is converted
to the integer parameter of `delay`. -/
def stepDelayFloat (p : ℕ) (timeStep : ℤ) : ℤ :=
  truncate (roundBinary p (roundBinary p timeStep / roundBinary p (9 / 5)))

/-- Modelled from the spec: `String::indexOf(char)` of the Arduino core, which
`beSmart` calls and the class does not define: the index of the first
occurrence of `ch` ("the first space"), and -1 when there is none. -/
def indexOf (ch : Char) : List Char → Int
  | [] => -1
  | c :: cs => if c = ch then 0 else if indexOf ch cs < 0 then -1 else indexOf ch cs + 1

/-- Modelled from the spec: `String::substring(left, right)` of the Arduino
core: the characters from index `left` up to, not including, index `right`
("the substring between").  The parameters are `unsigned int`: a negative
`int` argument converts to a value above every length.  As in the Arduino
core the two indices are exchanged when `left > right`, and `right` is
limited to the length. -/
def substring (cs : List Char) (left right : Int) : List Char :=
  let l : Nat := if left < 0 then cs.length else left.toNat
  let r : Nat := if right < 0 then cs.length else right.toNat
  (cs.take (max l r)).drop (min l r)

/-- Modelled from the spec: `String::substring(left)` of the Arduino core,
"everything after" index `left`: `substring(left, length)`. -/
def substringFrom (cs : List Char) (left : Int) : List Char :=
  substring cs left cs.length

/-- The C library's `isspace` in the default locale: the blank and the
characters 9 to 13. -/
def isspace (c : Char) : Bool :=
  c.toNat == 32 || (9 ≤ c.toNat && c.toNat ≤ 13)

/-- Modelled from the spec: `String::trim()` of the Arduino core, which removes
the whitespace around the text ("possibly surrounded by whitespace"). -/
def trim (cs : List Char) : List Char :=
  ((cs.dropWhile isspace).reverse.dropWhile isspace).reverse

/-- The value of the longest prefix of decimal digits of `cs`, read after the
digits accumulated in `acc`. -/
def readDigits (acc : Nat) : List Char → Nat
  | [] => acc
  | c :: cs => if c.isDigit then readDigits (acc * 10 + (c.toNat - 48)) cs else acc

/-- Modelled from the spec: `String::toInt()` of the Arduino core, the C
library's `atol`: leading whitespace is skipped, an optional sign is read, then
the decimal digits that follow; text without digits gives 0 ("parse-or-zero").
The result is not limited to the range of `long`. -/
def toInt (cs : List Char) : Int :=
  match cs.dropWhile isspace with
  | '-' :: rest => -(readDigits 0 rest : Int)
  | '+' :: rest => (readDigits 0 rest : Int)
  | rest => (readDigits 0 rest : Int)

/-- Lines 123-137 of `EX_Servo::beSmart` on a target whose `int` has width `w`:
the level and the duration read from the command string, each the `long`
result of `toInt` converted to `int` (`int(level.toInt())`,
`int(duration.toInt())`). -/
def parseCommand (w : IntWidth) (str : String) : Int × Int :=
  let level := substring str.data (indexOf ' ' str.data + 1) (indexOf ':' str.data)
  let duration := substringFrom str.data (indexOf ':' str.data + 1)
  (wrapInt w (toInt (trim level)), wrapInt w (toInt (trim duration)))

/-- The member `EX_Servo::beSmart` (lines 121-150) on its argument, the command
string. -/
def beSmartString (s : EX_Servo) (str : String) : EX_Servo × List Event :=
  beSmart s (parseCommand s.intWidth str).1 (parseCommand s.intWidth str).2

/-! ## Integer division -/

theorem tdiv_hundred_of_nonpos {a : Int} (ha : a ≤ 0) : a.tdiv 100 = -((-a) / 100) := by
  have h : a = -(-a) := by omega
  rw [h, Int.neg_tdiv, Int.tdiv_eq_ediv (by omega) (by norm_num)]
  simp

theorem tdiv_hundred_mono {a b : Int} (h : a ≤ b) : a.tdiv 100 ≤ b.tdiv 100 := by
  rcases le_total 0 a with ha | ha <;> rcases le_total 0 b with hb | hb
  · rw [Int.tdiv_eq_ediv ha (by norm_num), Int.tdiv_eq_ediv hb (by norm_num)]; omega
  · rw [Int.tdiv_eq_ediv ha (by norm_num), tdiv_hundred_of_nonpos hb]; omega
  · rw [tdiv_hundred_of_nonpos ha, Int.tdiv_eq_ediv hb (by norm_num)]; omega
  · rw [tdiv_hundred_of_nonpos ha, tdiv_hundred_of_nonpos hb]; omega

/-! ## Conversion to `int` -/

theorem intMin_w16 : intMin IntWidth.w16 = -32768 := by decide

theorem intMax_w16 : intMax IntWidth.w16 = 32767 := by decide

theorem intMin_w32 : intMin IntWidth.w32 = -2147483648 := by decide

theorem intMax_w32 : intMax IntWidth.w32 = 2147483647 := by decide

theorem intMin_le (w : IntWidth) : intMin w ≤ -32768 := by
  cases w
  · rw [intMin_w16]
  · rw [intMin_w32]; norm_num

theorem le_intMax (w : IntWidth) : 32767 ≤ intMax w := by
  cases w
  · rw [intMax_w16]
  · rw [intMax_w32]; norm_num

/-- A value in the range of `int` is unchanged by the conversion to `int`. -/
theorem wrapInt_of_inRange (w : IntWidth) (x : Int) (h1 : intMin w ≤ x) (h2 : x ≤ intMax w) :
    wrapInt w x = x := by
  cases w
  · rw [intMin_w16] at h1
    rw [intMax_w16] at h2
    simp only [wrapInt, IntWidth.bits]
    norm_num
    omega
  · rw [intMin_w32] at h1
    rw [intMax_w32] at h2
    simp only [wrapInt, IntWidth.bits]
    norm_num
    omega

/-- The conversion to `int` yields a value in the range of `int`. -/
theorem wrapInt_range (w : IntWidth) (x : Int) :
    intMin w ≤ wrapInt w x ∧ wrapInt w x ≤ intMax w := by
  cases w
  · rw [intMin_w16, intMax_w16]
    simp only [wrapInt, IntWidth.bits]
    norm_num
    omega
  · rw [intMin_w32, intMax_w32]
    simp only [wrapInt, IntWidth.bits]
    norm_num
    omega

/-- Values that fit in 16 bits are unchanged by the conversion at any width. -/
theorem wrapInt_small (w : IntWidth) (x : Int) (h1 : -32768 ≤ x) (h2 : x ≤ 32767) :
    wrapInt w x = x :=
  wrapInt_of_inRange w x (le_trans (intMin_le w) h1) (le_trans h2 (le_intMax w))

/-! ## The stepping loop -/

theorem stepLoop_step (ts : Int) (k : Nat) (s : EX_Servo) :
    stepLoop ts (k + 1) s =
      ((stepLoop ts k { s with m_nCurrentAngle := s.m_nCurrentAngle + stepDir s }).1,
        Event.write (s.m_nCurrentAngle + stepDir s) :: Event.delay (stepDelay ts) ::
          (stepLoop ts k { s with m_nCurrentAngle := s.m_nCurrentAngle + stepDir s }).2) := by
  unfold stepDir
  rw [stepLoop]
  split <;> simp [Int.sub_eq_add_neg]

theorem stepLoop_fst (ts : Int) (k : Nat) (s : EX_Servo) :
    (stepLoop ts k s).1 = { s with m_nCurrentAngle := s.m_nCurrentAngle + k * stepDir s } := by
  induction k generalizing s with
  | zero => simp [stepLoop]
  | succ k ih =>
    rw [stepLoop_step, ih]
    simp only [stepDir, Nat.cast_succ]
    congr 1
    ring

theorem stepLoop_writes (ts : Int) (k : Nat) (s : EX_Servo) :
    writes (stepLoop ts k s).2 =
      (List.range k).map (fun (j : Nat) => s.m_nCurrentAngle + ((j : Int) + 1) * stepDir s) := by
  induction k generalizing s with
  | zero => simp [stepLoop, writes]
  | succ k ih =>
    rw [stepLoop_step, List.range_succ_eq_map]
    simp only [writes, ih, List.map_cons, List.map_map]
    congr 1
    · simp
    · apply List.map_congr_left
      intro j _
      simp only [stepDir, Function.comp, Nat.cast_succ]
      ring

theorem stepLoop_delays (ts : Int) (k : Nat) (s : EX_Servo) :
    delays (stepLoop ts k s).2 = List.replicate k (stepDelay ts) := by
  induction k generalizing s with
  | zero => simp [stepLoop, delays]
  | succ k ih =>
    rw [stepLoop_step]
    simp [delays, ih, List.replicate_succ]

/-! ## Traces and the parts of the motion cycle -/

theorem writes_append (xs ys : List Event) : writes (xs ++ ys) = writes xs ++ writes ys := by
  induction xs with
  | nil => rfl
  | cons e es ih => cases e <;> simp [writes, ih]

theorem delays_append (xs ys : List Event) : delays (xs ++ ys) = delays xs ++ delays ys := by
  induction xs with
  | nil => rfl
  | cons e es ih => cases e <;> simp [delays, ih]

theorem attachedAfter_append (b : Bool) (xs ys : List Event) :
    attachedAfter b (xs ++ ys) = attachedAfter (attachedAfter b xs) ys := by
  induction xs generalizing b with
  | nil => rfl
  | cons e es ih => cases e <;> simp [attachedAfter, ih]

theorem writesAttached_append (b : Bool) (xs ys : List Event) :
    writesAttached b (xs ++ ys) =
      (writesAttached b xs && writesAttached (attachedAfter b xs) ys) := by
  induction xs generalizing b with
  | nil => simp [writesAttached, attachedAfter]
  | cons e es ih => cases e <;> simp [writesAttached, attachedAfter, ih, Bool.and_assoc]

theorem clampTarget_range (s : EX_Servo) :
    0 ≤ (clampTarget s).m_nTargetAngle ∧ (clampTarget s).m_nTargetAngle ≤ 180 := by
  unfold clampTarget
  split_ifs <;> constructor <;> first | (simp only; omega) | omega

theorem clampTarget_eq (s : EX_Servo) :
    clampTarget s = { s with m_nTargetAngle := (clampTarget s).m_nTargetAngle } := by
  unfold clampTarget
  split_ifs <;> rfl

theorem ensureAttached_fst (s : EX_Servo) :
    (ensureAttached s).1 = { s with servoAttached := true } := by
  unfold ensureAttached
  cases h : s.servoAttached <;> simp
  cases s; simp_all

theorem ensureAttached_snd (s : EX_Servo) :
    (ensureAttached s).2 = if s.servoAttached then [] else [Event.attach s.m_nPinPWM] := by
  unfold ensureAttached
  cases h : s.servoAttached <;> simp

theorem detachAfterMove_fst (s : EX_Servo) :
    (detachAfterMove s).1 = { s with servoAttached := s.servoAttached && !s.m_bDetachAfterMove } := by
  unfold detachAfterMove
  cases s
  rename_i d _ _
  cases d <;> simp

theorem detachAfterMove_snd (s : EX_Servo) :
    (detachAfterMove s).2 = if s.m_bDetachAfterMove then [Event.detach] else [] := by
  unfold detachAfterMove
  cases h : s.m_bDetachAfterMove <;> simp

theorem clampTarget_attached (s : EX_Servo) :
    clampTarget { s with servoAttached := true } =
      { clampTarget s with servoAttached := true } := by
  unfold clampTarget
  split_ifs <;> rfl

/-- State after the move part of the cycle. -/
theorem moveServo_fst (s : EX_Servo) :
    (moveServo s).1 =
      if s.m_nTargetAngle = s.m_nOldAngle then s
      else { s with m_nCurrentAngle := s.m_nTargetAngle } := by
  unfold moveServo
  split_ifs with h
  · rfl
  · simp only [stepLoop_fst, stepDir]
    congr 1
    split_ifs with h2
    · have : (0:Int) ≤ s.m_nTargetAngle - s.m_nOldAngle := by omega
      rw [abs_of_nonneg this, Int.toNat_of_nonneg this]; ring
    · have : s.m_nTargetAngle - s.m_nOldAngle < 0 := by omega
      rw [abs_of_neg this, Int.toNat_of_nonneg (by omega)]; ring

theorem moveServo_snd_eq (s : EX_Servo) (h : s.m_nTargetAngle = s.m_nOldAngle) :
    (moveServo s).2 = [Event.write s.m_nTargetAngle, Event.delay 1000] := by
  simp [moveServo, h]

theorem moveServo_writes_ne (s : EX_Servo) (h : s.m_nTargetAngle ≠ s.m_nOldAngle) :
    writes (moveServo s).2 =
      (List.range (s.m_nTargetAngle - s.m_nOldAngle).natAbs).map
        (fun (k : Nat) =>
          if s.m_nOldAngle < s.m_nTargetAngle then s.m_nOldAngle + ((k : Int) + 1)
          else s.m_nOldAngle - ((k : Int) + 1)) := by
  unfold moveServo
  rw [if_neg h]
  simp only [stepLoop_writes, stepDir]
  have hn : (|s.m_nTargetAngle - s.m_nOldAngle|).toNat = (s.m_nTargetAngle - s.m_nOldAngle).natAbs := by
    rcases le_total 0 (s.m_nTargetAngle - s.m_nOldAngle) with h0 | h0
    · rw [abs_of_nonneg h0]; omega
    · rw [abs_of_nonpos h0]; omega
  rw [hn]
  apply List.map_congr_left
  intro k _
  split_ifs <;> omega

/-! ## Attach and detach calls inside the move -/

theorem stepLoop_no_detach (ts : Int) (k : Nat) (s : EX_Servo) :
    Event.detach ∉ (stepLoop ts k s).2 := by
  induction k generalizing s with
  | zero => simp [stepLoop]
  | succ k ih => rw [stepLoop_step]; simp [ih]

theorem stepLoop_attachedAfter (ts : Int) (k : Nat) (s : EX_Servo) (b : Bool) :
    attachedAfter b (stepLoop ts k s).2 = b := by
  induction k generalizing s with
  | zero => simp [stepLoop, attachedAfter]
  | succ k ih => rw [stepLoop_step]; simp [attachedAfter, ih]

theorem stepLoop_writesAttached (ts : Int) (k : Nat) (s : EX_Servo) :
    writesAttached true (stepLoop ts k s).2 = true := by
  induction k generalizing s with
  | zero => simp [stepLoop, writesAttached]
  | succ k ih => rw [stepLoop_step]; simp [writesAttached, ih]

theorem moveServo_no_detach (s : EX_Servo) : Event.detach ∉ (moveServo s).2 := by
  unfold moveServo
  split_ifs
  · simp
  · exact stepLoop_no_detach _ _ _

theorem moveServo_attachedAfter (s : EX_Servo) (b : Bool) :
    attachedAfter b (moveServo s).2 = b := by
  unfold moveServo
  split_ifs
  · simp [attachedAfter]
  · exact stepLoop_attachedAfter _ _ _ _

theorem moveServo_writesAttached (s : EX_Servo) :
    writesAttached true (moveServo s).2 = true := by
  unfold moveServo
  split_ifs
  · simp [writesAttached]
  · exact stepLoop_writesAttached _ _ _

/-- The state the motion cycle leaves behind. -/
theorem writeAngleToPin_fst (s : EX_Servo) :
    (writeAngleToPin s).1 =
      { s with
        servoAttached := !s.m_bDetachAfterMove
        m_nTargetAngle := (clampTarget s).m_nTargetAngle
        m_nCurrentAngle :=
          if (clampTarget s).m_nTargetAngle = s.m_nOldAngle then s.m_nCurrentAngle
          else (clampTarget s).m_nTargetAngle } := by
  unfold writeAngleToPin
  simp only [ensureAttached_fst, clampTarget_attached, detachAfterMove_fst, moveServo_fst]
  rw [clampTarget_eq s]
  split_ifs <;> simp_all

/-- The calls of the motion cycle: an attach if the servo was detached, the
move, a detach if configured. -/
theorem writeAngleToPin_snd (s : EX_Servo) :
    (writeAngleToPin s).2 =
      (if s.servoAttached then [] else [Event.attach s.m_nPinPWM]) ++
        (moveServo (clampTarget { s with servoAttached := true })).2 ++
        (if s.m_bDetachAfterMove then [Event.detach] else []) := by
  unfold writeAngleToPin
  simp only [ensureAttached_fst, ensureAttached_snd, clampTarget_attached, detachAfterMove_snd,
    moveServo_fst]
  rw [clampTarget_eq s]
  split_ifs <;> simp_all

/-! ## The angles written by a motion cycle -/

theorem map_level (L z b : Int) : map L 0 100 z b = z + (L * (b - z)).tdiv 100 := by
  simp [map]

theorem clampTarget_old (s : EX_Servo) : (clampTarget s).m_nOldAngle = s.m_nOldAngle := by
  unfold clampTarget
  split_ifs <;> rfl

theorem clampTarget_value (s : EX_Servo) :
    (clampTarget s).m_nTargetAngle = max 0 (min 180 s.m_nTargetAngle) := by
  unfold clampTarget
  split_ifs <;> first | (simp only; omega) | omega

theorem moveServo_writes (s : EX_Servo) :
    writes (moveServo s).2 =
      if s.m_nTargetAngle = s.m_nOldAngle then [s.m_nTargetAngle]
      else
        (List.range (s.m_nTargetAngle - s.m_nOldAngle).natAbs).map
          (fun (k : Nat) =>
            if s.m_nOldAngle < s.m_nTargetAngle then s.m_nOldAngle + ((k : Int) + 1)
            else s.m_nOldAngle - ((k : Int) + 1)) := by
  by_cases h : s.m_nTargetAngle = s.m_nOldAngle
  · rw [if_pos h, moveServo_snd_eq _ h]; rfl
  · rw [if_neg h, moveServo_writes_ne _ h]

theorem writeAngleToPin_writes (s : EX_Servo) :
    writes (writeAngleToPin s).2 =
      if (clampTarget s).m_nTargetAngle = s.m_nOldAngle then [(clampTarget s).m_nTargetAngle]
      else
        (List.range ((clampTarget s).m_nTargetAngle - s.m_nOldAngle).natAbs).map
          (fun (k : Nat) =>
            if s.m_nOldAngle < (clampTarget s).m_nTargetAngle then s.m_nOldAngle + ((k : Int) + 1)
            else s.m_nOldAngle - ((k : Int) + 1)) := by
  rw [writeAngleToPin_snd, writes_append, writes_append, clampTarget_attached]
  have h1 : writes (if s.servoAttached then [] else [Event.attach s.m_nPinPWM]) = [] := by
    split_ifs <;> rfl
  have h2 : writes (if s.m_bDetachAfterMove then [Event.detach] else []) = [] := by
    split_ifs <;> rfl
  rw [h1, h2, moveServo_writes]
  simp only [List.nil_append, List.append_nil, clampTarget_old]

theorem writeAngleToPin_last_write (s : EX_Servo) :
    (writes (writeAngleToPin s).2).getLast? = some (clampTarget s).m_nTargetAngle := by
  rw [writeAngleToPin_writes]
  by_cases h : (clampTarget s).m_nTargetAngle = s.m_nOldAngle
  · rw [if_pos h]; rfl
  · obtain ⟨m, hm⟩ : ∃ m, ((clampTarget s).m_nTargetAngle - s.m_nOldAngle).natAbs = m + 1 :=
      Nat.exists_eq_succ_of_ne_zero (by omega)
    rw [if_neg h, hm, List.range_succ, List.map_append, List.map_singleton, List.getLast?_concat]
    congr 1
    split_ifs <;> omega

/-! ## The attach state along a run -/

theorem writeAngleToPin_attached (s : EX_Servo) :
    writesAttached s.servoAttached (writeAngleToPin s).2 = true ∧
      attachedAfter s.servoAttached (writeAngleToPin s).2 = (writeAngleToPin s).1.servoAttached := by
  rw [writeAngleToPin_fst, writeAngleToPin_snd]
  simp only [writesAttached_append, attachedAfter_append]
  cases hA : s.servoAttached <;> cases hD : s.m_bDetachAfterMove <;>
    simp [writesAttached, attachedAfter, moveServo_attachedAfter, moveServo_writesAttached]

theorem acceptCommand_attached (s : EX_Servo) (L D : Int) :
    (acceptCommand s L D).servoAttached = s.servoAttached := rfl

theorem exec_attached (s : EX_Servo) (op : Op) :
    writesAttached s.servoAttached (op.exec s).2 = true ∧
      attachedAfter s.servoAttached (op.exec s).2 = (op.exec s).1.servoAttached := by
  cases op with
  | init =>
    have h := writeAngleToPin_attached s
    simp only [Op.exec, init, refresh, writesAttached_append, attachedAfter_append, h.1, h.2,
      writesAttached, attachedAfter]
    simp
  | beSmart L D =>
    have h := writeAngleToPin_attached (acceptCommand s L D)
    rw [acceptCommand_attached] at h
    simp only [Op.exec, beSmart, refresh, writesAttached_append, attachedAfter_append, h.1, h.2,
      writesAttached, attachedAfter]
    simp

theorem run_attached (s : EX_Servo) (ops : List Op) :
    writesAttached s.servoAttached (run s ops).2 = true ∧
      attachedAfter s.servoAttached (run s ops).2 = (run s ops).1.servoAttached := by
  induction ops generalizing s with
  | nil => simp [run, writesAttached, attachedAfter]
  | cons op ops ih =>
    have h := exec_attached s op
    have h2 := ih (op.exec s).1
    simp only [run, writesAttached_append, attachedAfter_append, h.1, h.2, h2.1, h2.2]
    simp

theorem attachedAfter_true_split (pre : List Event) (h : attachedAfter false pre = true) :
    ∃ p1 pin p2, pre = p1 ++ Event.attach pin :: p2 ∧ Event.detach ∉ p2 := by
  induction pre using List.reverseRecOn with
  | nil => simp [attachedAfter] at h
  | append_singleton pre e ih =>
    rw [attachedAfter_append] at h
    cases e with
    | attach p => exact ⟨pre, p, [], rfl, by simp⟩
    | detach => simp [attachedAfter] at h
    | write a =>
      obtain ⟨p1, pin, p2, h1, h2⟩ := ih (by simpa [attachedAfter] using h)
      exact ⟨p1, pin, p2 ++ [Event.write a], by simp [h1], by simp [h2]⟩
    | delay a =>
      obtain ⟨p1, pin, p2, h1, h2⟩ := ih (by simpa [attachedAfter] using h)
      exact ⟨p1, pin, p2 ++ [Event.delay a], by simp [h1], by simp [h2]⟩
    | send a =>
      obtain ⟨p1, pin, p2, h1, h2⟩ := ih (by simpa [attachedAfter] using h)
      exact ⟨p1, pin, p2 ++ [Event.send a], by simp [h1], by simp [h2]⟩

theorem writesAttached_write (b : Bool) (pre post : List Event) (a : Int)
    (h : writesAttached b (pre ++ Event.write a :: post) = true) :
    attachedAfter b pre = true := by
  rw [writesAttached_append] at h
  simp only [writesAttached, Bool.and_eq_true] at h
  exact h.2.1

theorem init_writes (s : EX_Servo) : writes (init s).2 = writes (writeAngleToPin s).2 := by
  simp only [init, refresh, writes_append, writes, List.append_nil]

theorem beSmart_writes (s : EX_Servo) (L D : Int) :
    writes (beSmart s L D).2 = writes (writeAngleToPin (acceptCommand s L D)).2 := by
  simp only [beSmart, refresh, writes_append, writes, List.append_nil]

/-! ## Reports and the range of the target angle -/

theorem sends_append (xs ys : List Event) : sends (xs ++ ys) = sends xs ++ sends ys := by
  induction xs with
  | nil => rfl
  | cons e es ih => cases e <;> simp [sends, ih]

theorem stepLoop_sends (ts : Int) (k : Nat) (s : EX_Servo) : sends (stepLoop ts k s).2 = [] := by
  induction k generalizing s with
  | zero => simp [stepLoop, sends]
  | succ k ih => rw [stepLoop_step]; simp [sends, ih]

theorem moveServo_sends (s : EX_Servo) : sends (moveServo s).2 = [] := by
  unfold moveServo
  split_ifs
  · simp [sends]
  · exact stepLoop_sends _ _ _

theorem writeAngleToPin_sends (s : EX_Servo) : sends (writeAngleToPin s).2 = [] := by
  rw [writeAngleToPin_snd, sends_append, sends_append, moveServo_sends]
  cases s.servoAttached <;> cases s.m_bDetachAfterMove <;> rfl

theorem init_fst (s : EX_Servo) : (init s).1 = (writeAngleToPin s).1 := rfl

theorem beSmart_fst (s : EX_Servo) (L D : Int) :
    (beSmart s L D).1 = (writeAngleToPin (acceptCommand s L D)).1 := rfl

theorem init_sends (s : EX_Servo) : sends (init s).2 = sends (refresh (init s).1).2 := by
  simp only [init, refresh, sends_append, writeAngleToPin_sends, List.nil_append]

theorem beSmart_sends (s : EX_Servo) (L D : Int) :
    sends (beSmart s L D).2 = sends (refresh (beSmart s L D).1).2 := by
  simp only [beSmart, refresh, sends_append, writeAngleToPin_sends, List.nil_append]

theorem writeAngleToPin_target_range (s : EX_Servo) :
    0 ≤ (writeAngleToPin s).1.m_nTargetAngle ∧ (writeAngleToPin s).1.m_nTargetAngle ≤ 180 := by
  rw [writeAngleToPin_fst]
  exact clampTarget_range s

theorem exec_target_range (s : EX_Servo) (op : Op) :
    0 ≤ (op.exec s).1.m_nTargetAngle ∧ (op.exec s).1.m_nTargetAngle ≤ 180 := by
  cases op with
  | init => exact writeAngleToPin_target_range s
  | beSmart L D => exact writeAngleToPin_target_range _

theorem run_append (s : EX_Servo) (ops1 ops2 : List Op) :
    run s (ops1 ++ ops2) =
      ((run (run s ops1).1 ops2).1, (run s ops1).2 ++ (run (run s ops1).1 ops2).2) := by
  induction ops1 generalizing s with
  | nil => simp [run]
  | cons op ops ih => simp [run, ih]

theorem run_target_range (s : EX_Servo) (ops : List Op)
    (h : 0 ≤ s.m_nTargetAngle ∧ s.m_nTargetAngle ≤ 180) :
    0 ≤ (run s ops).1.m_nTargetAngle ∧ (run s ops).1.m_nTargetAngle ≤ 180 := by
  induction ops generalizing s with
  | nil => exact h
  | cons op ops ih => exact ih _ (exec_target_range s op)

/-- Every angle a motion cycle writes lies between `oldAngle` and the clamped
target angle. -/
theorem writeAngleToPin_writes_between (s : EX_Servo) (a : Int)
    (ha : a ∈ writes (writeAngleToPin s).2) :
    min s.m_nOldAngle (clampTarget s).m_nTargetAngle ≤ a ∧
      a ≤ max s.m_nOldAngle (clampTarget s).m_nTargetAngle := by
  rw [writeAngleToPin_writes] at ha
  by_cases h : (clampTarget s).m_nTargetAngle = s.m_nOldAngle
  · rw [if_pos h] at ha
    simp only [List.mem_singleton] at ha
    omega
  · rw [if_neg h, List.mem_map] at ha
    obtain ⟨k, hk, rfl⟩ := ha
    rw [List.mem_range] at hk
    split_ifs <;> omega

theorem beSmart_writes_range (s : EX_Servo) (L D : Int)
    (h : 0 ≤ s.m_nTargetAngle ∧ s.m_nTargetAngle ≤ 180) (a : Int)
    (ha : a ∈ writes (beSmart s L D).2) : 0 ≤ a ∧ a ≤ 180 := by
  rw [beSmart_writes] at ha
  have hb := writeAngleToPin_writes_between _ a ha
  have hc := clampTarget_range (acceptCommand s L D)
  have hold : (acceptCommand s L D).m_nOldAngle = s.m_nTargetAngle := rfl
  rw [hold] at hb
  omega

theorem cmds_writes_in_range (s : EX_Servo)
    (h : 0 ≤ s.m_nTargetAngle ∧ s.m_nTargetAngle ≤ 180) (cmds : List (Int × Int)) :
    ∀ a ∈ writes (run s (cmds.map (fun c => Op.beSmart c.1 c.2))).2, 0 ≤ a ∧ a ≤ 180 := by
  induction cmds generalizing s with
  | nil => simp [run, writes]
  | cons c cmds ih =>
    intro a ha
    simp only [List.map_cons, run, writes_append, List.mem_append, Op.exec] at ha
    rcases ha with ha | ha
    · exact beSmart_writes_range s c.1 c.2 h a ha
    · exact ih _ (writeAngleToPin_target_range _) a ha

theorem map_between (L z b : Int) (hL : 0 ≤ L ∧ L ≤ 100) :
    min z b ≤ map L 0 100 z b ∧ map L 0 100 z b ≤ max z b := by
  rw [map_level]
  have h100 : (100 * (b - z)).tdiv 100 = b - z := Int.mul_tdiv_cancel_left _ (by norm_num)
  have h0 : (0 : Int).tdiv 100 = 0 := by simp
  rcases le_total z b with hzb | hbz
  · have h1 : 0 ≤ L * (b - z) := mul_nonneg hL.1 (by omega)
    have h2 : L * (b - z) ≤ 100 * (b - z) := mul_le_mul_of_nonneg_right hL.2 (by omega)
    have h3 := tdiv_hundred_mono h1
    have h4 := tdiv_hundred_mono h2
    rw [h0] at h3
    rw [h100] at h4
    omega
  · have h1 : L * (b - z) ≤ 0 := mul_nonpos_of_nonneg_of_nonpos hL.1 (by omega)
    have h2 : 100 * (b - z) ≤ L * (b - z) := mul_le_mul_of_nonpos_right hL.2 (by omega)
    have h3 := tdiv_hundred_mono h1
    have h4 := tdiv_hundred_mono h2
    rw [h0] at h3
    rw [h100] at h4
    omega

/-! ## Floating-point evaluation of the per-step delay -/


theorem roundHalfEven_close (y : ℚ) :
    y - 1 / 2 ≤ (roundHalfEven y : ℚ) ∧ (roundHalfEven y : ℚ) ≤ y + 1 / 2 := by
  have h1 := Int.floor_le y
  have h2 := Int.lt_floor_add_one y
  unfold roundHalfEven
  split_ifs <;> push_cast <;> constructor <;> linarith

theorem roundHalfEven_intCast (n : ℤ) : roundHalfEven (n : ℚ) = n := by
  unfold roundHalfEven
  simp

theorem core_bounds (C t d F m K P : ℤ) (hK : 0 < K) (hC : 0 < C) (ht : 0 < t) (hd : d ≤ 2)
    (hF1 : 9 * F ≤ 5 * t) (hF2 : 5 * t ≤ 9 * F + 8) (h9 : 9 * P = 5 * C - d)
    (hm1 : 2 * (t * P * K) - C ≤ 2 * (C * m)) (hm2 : 2 * (C * m) ≤ 2 * (t * P * K) + C)
    (hx1 : C ≤ t * K) (hx2 : t * K < 2 * C) (hii : t * (9 - 2 * d) < 2 * C) :
    F * K ≤ m ∧ m < (F + 1) * K := by
  have hP : 18 * (t * P * K) = 2 * (t * K) * (5 * C - d) := by rw [← h9]; ring
  have htK : 0 < t * K := mul_pos ht hK
  have hCK : 0 < C * K := mul_pos hC hK
  constructor
  · by_contra hlt
    push_neg at hlt
    have h1 : m ≤ F * K - 1 := by omega
    have h2 : C * m ≤ C * (F * K - 1) := mul_le_mul_of_nonneg_left h1 hC.le
    have h3 : (C * K) * (9 * F) ≤ (C * K) * (5 * t) := mul_le_mul_of_nonneg_left hF1 hCK.le
    have h4 : (t * K) * d ≤ (t * K) * 2 := mul_le_mul_of_nonneg_left hd htK.le
    nlinarith
  · by_contra hge
    push_neg at hge
    have h2 : C * ((F + 1) * K) ≤ C * m := mul_le_mul_of_nonneg_left hge hC.le
    have h3 : (C * K) * (5 * t + 1) ≤ (C * K) * (9 * F + 9) :=
      mul_le_mul_of_nonneg_left (by omega) hCK.le
    have h5 : 2 * (K * (C + t * d)) ≤ 9 * C := by nlinarith
    have h6 : 0 < C + t * d := by nlinarith
    have h7 : C * (C + t * d) ≤ (t * K) * (C + t * d) := mul_le_mul_of_nonneg_right hx1 h6.le
    have h8 : 2 * (t * K * (C + t * d)) ≤ 9 * C * t := by nlinarith
    have h9' : 2 * (C * (C + t * d)) ≤ 9 * C * t := by linarith
    have h10 : 2 * (C + t * d) ≤ 9 * t := by
      by_contra hh
      push_neg at hh
      have := mul_lt_mul_of_pos_left hh hC
      nlinarith
    nlinarith


theorem roundHalfEven_eq (y : ℚ) (n : ℤ) (h1 : (n : ℚ) - 1 / 2 < y) (h2 : y < n + 1 / 2) :
    roundHalfEven y = n := by
  have hc := roundHalfEven_close y
  have h3 : ((n - 1 : ℤ) : ℚ) < (roundHalfEven y : ℚ) := by push_cast; linarith
  have h4 : (roundHalfEven y : ℚ) < ((n + 1 : ℤ) : ℚ) := by push_cast; linarith
  have h5 : n - 1 < roundHalfEven y := by exact_mod_cast h3
  have h6 : roundHalfEven y < n + 1 := by exact_mod_cast h4
  omega

theorem log_two_eq (x : ℚ) (hx : 0 < x) (e : ℤ) (h1 : (2 : ℚ) ^ e ≤ x)
    (h2 : x < (2 : ℚ) ^ (e + 1)) : Int.log 2 x = e := by
  have h1' : ((2 : ℕ) : ℚ) ^ e ≤ x := by exact_mod_cast h1
  have h2' : x < ((2 : ℕ) : ℚ) ^ (e + 1) := by exact_mod_cast h2
  have ha := (Int.zpow_le_iff_le_log (by norm_num : 1 < 2) hx).mp h1'
  have hb := (Int.lt_zpow_iff_log_lt (by norm_num : 1 < 2) hx).mp h2'
  omega

theorem log_two_bounds (x : ℚ) (hx : 0 < x) :
    (2 : ℚ) ^ Int.log 2 x ≤ x ∧ x < (2 : ℚ) ^ (Int.log 2 x + 1) := by
  have h1 := Int.zpow_log_le_self (by norm_num : 1 < 2) hx
  have h2 := Int.lt_zpow_succ_log_self (by norm_num : 1 < 2) x
  exact ⟨by exact_mod_cast h1, by exact_mod_cast h2⟩

/-- Rounding of a positive `x` whose exponent is `p - 1 - k`: the significand
is `x * 2 ^ k` rounded to an integer, and it lies between `2 ^ (p - 1)` and
`2 ^ p`. -/
theorem roundBinary_of_log (p : ℕ) (x : ℚ) (hx : 0 < x) (k : ℕ)
    (hk : Int.log 2 x = (p : ℤ) - 1 - k) :
    roundBinary p x = (roundHalfEven (x * 2 ^ k) : ℚ) / 2 ^ k ∧
      (2 : ℚ) ^ ((p : ℤ) - 1) ≤ x * 2 ^ k ∧ x * 2 ^ k < 2 * (2 : ℚ) ^ ((p : ℤ) - 1) := by
  have hpow : (0 : ℚ) < 2 ^ k := by positivity
  have he : (p : ℤ) - 1 - k - ((p : ℤ) - 1) = -(k : ℤ) := by ring
  have hb := log_two_bounds x hx
  rw [hk] at hb
  have hsplit : (2 : ℚ) ^ ((p : ℤ) - 1) = 2 ^ ((p : ℤ) - 1 - k) * 2 ^ k := by
    rw [← zpow_natCast (2 : ℚ) k, ← zpow_add₀ (by norm_num : (2 : ℚ) ≠ 0)]
    congr 1
    ring
  have hsplit2 : (2 : ℚ) ^ ((p : ℤ) - 1 - k + 1) = 2 * 2 ^ ((p : ℤ) - 1 - k) := by
    rw [zpow_add_one₀ (by norm_num : (2 : ℚ) ≠ 0)]
    ring
  refine ⟨?_, ?_, ?_⟩
  · unfold roundBinary
    rw [if_neg hx.ne', abs_of_pos hx, hk, he, zpow_neg, zpow_natCast]
    rw [div_inv_eq_mul, div_eq_mul_inv]
  · rw [hsplit]
    exact mul_le_mul_of_nonneg_right hb.1 hpow.le
  · rw [hsplit]
    have := mul_lt_mul_of_pos_right hb.2 hpow
    rw [hsplit2] at this
    linarith

/-- The exponent of a positive `x` below `2 ^ p` is at most `p - 1`. -/
theorem log_two_le (p : ℕ) (x : ℚ) (hx : 0 < x) (h : x < 2 * (2 : ℚ) ^ ((p : ℤ) - 1)) :
    ∃ k : ℕ, Int.log 2 x = (p : ℤ) - 1 - k := by
  have hb := log_two_bounds x hx
  have h2 : (2 : ℚ) ^ Int.log 2 x < (2 : ℚ) ^ (((p : ℤ) - 1) + 1) := by
    rw [zpow_add_one₀ (by norm_num : (2 : ℚ) ≠ 0)]
    linarith
  have h3 := (zpow_lt_zpow_iff_right₀ (by norm_num : (1 : ℚ) < 2)).mp h2
  exact ⟨((p : ℤ) - 1 - Int.log 2 x).toNat, by omega⟩


/-- Integers below `2 ^ p` are floating-point numbers: rounding leaves them
unchanged. -/
theorem roundBinary_intCast (p : ℕ) (t : ℤ) (ht : 0 < t)
    (h : (t : ℚ) < 2 * (2 : ℚ) ^ ((p : ℤ) - 1)) : roundBinary p (t : ℚ) = t := by
  have hx : (0 : ℚ) < t := by exact_mod_cast ht
  obtain ⟨k, hk⟩ := log_two_le p t hx h
  rw [(roundBinary_of_log p t hx k hk).1]
  have hcast : (t : ℚ) * 2 ^ k = ((t * 2 ^ k : ℤ) : ℚ) := by push_cast; ring
  rw [hcast, roundHalfEven_intCast]
  push_cast
  field_simp

/-- The floating-point quotient of an integer `t` by `C / P`, where `P` is
`2 ^ (p - 1)` and `C / P` is within `2 / (5 P)` above or any distance below
9/5, truncates to `5 t / 9` as long as `t (9 - 2 d) < 2 C`, `d = 5 C - 9 P`. -/
theorem roundBinary_div_floor (p : ℕ) (P C d t : ℤ) (hP : (2 : ℚ) ^ ((p : ℤ) - 1) = P)
    (hC : 0 < C) (ht : 0 < t) (hd : d ≤ 2) (h9 : 9 * P = 5 * C - d)
    (hii : t * (9 - 2 * d) < 2 * C) :
    ⌊roundBinary p ((t : ℚ) / ((C : ℚ) / P))⌋ = 5 * t / 9 := by
  have hPq : (0 : ℚ) < P := by rw [← hP]; positivity
  have hPz : 0 < P := by exact_mod_cast hPq
  have hCq : (0 : ℚ) < C := by exact_mod_cast hC
  have htq : (0 : ℚ) < t := by exact_mod_cast ht
  have hx : (0 : ℚ) < (t : ℚ) / ((C : ℚ) / P) := by positivity
  have hxe : (t : ℚ) / ((C : ℚ) / P) = t * P / C := by field_simp
  have ht2 : t < 2 * C := by nlinarith
  have hlt : (t : ℚ) / ((C : ℚ) / P) < 2 * (2 : ℚ) ^ ((p : ℤ) - 1) := by
    rw [hP, hxe, div_lt_iff₀ hCq]
    have : (t : ℚ) < 2 * C := by exact_mod_cast ht2
    nlinarith
  obtain ⟨k, hk⟩ := log_two_le p _ hx hlt
  obtain ⟨hr, hlo, hhi⟩ := roundBinary_of_log p _ hx k hk
  rw [hP] at hlo hhi
  have hclose := roundHalfEven_close ((t : ℚ) / ((C : ℚ) / P) * 2 ^ k)
  generalize roundHalfEven ((t : ℚ) / ((C : ℚ) / P) * 2 ^ k) = m at hr hclose
  have hxK : (t : ℚ) / ((C : ℚ) / P) * 2 ^ k * C = t * P * 2 ^ k := by
    rw [hxe]; field_simp
  have hKq : (0 : ℚ) < 2 ^ k := by positivity
  -- integer forms of the rounding and exponent bounds
  have hm1 : 2 * (t * P * 2 ^ k) - C ≤ 2 * (C * m) := by
    have : (2 : ℚ) * (t * P * 2 ^ k) - C ≤ 2 * (C * m) := by
      rw [← hxK]; nlinarith [hclose.1]
    exact_mod_cast this
  have hm2 : 2 * (C * m) ≤ 2 * (t * P * 2 ^ k) + C := by
    have : (2 : ℚ) * (C * m) ≤ 2 * (t * P * 2 ^ k) + C := by
      rw [← hxK]; nlinarith [hclose.2]
    exact_mod_cast this
  have hx1 : C ≤ t * 2 ^ k := by
    have h1 : (P : ℚ) * C ≤ t * P * 2 ^ k := by
      rw [← hxK]; exact mul_le_mul_of_nonneg_right hlo hCq.le
    have h2 : P * C ≤ P * (t * 2 ^ k) := by
      have : (P : ℚ) * C ≤ P * (t * 2 ^ k) := by linarith
      exact_mod_cast this
    exact le_of_mul_le_mul_left h2 hPz
  have hx2 : t * 2 ^ k < 2 * C := by
    have h1 : (t : ℚ) * P * 2 ^ k < 2 * P * C := by
      rw [← hxK]; exact mul_lt_mul_of_pos_right hhi hCq
    have h2 : P * (t * 2 ^ k) < P * (2 * C) := by
      have : (P : ℚ) * (t * 2 ^ k) < P * (2 * C) := by linarith
      exact_mod_cast this
    exact lt_of_mul_lt_mul_left h2 hPz.le
  have hcore := core_bounds C t d (5 * t / 9) m (2 ^ k) P (by positivity) hC ht hd
    (by omega) (by omega) h9 hm1 hm2 hx1 hx2 hii
  rw [hr, Int.floor_eq_iff]
  constructor
  · rw [le_div_iff₀ hKq]
    exact_mod_cast hcore.1
  · rw [div_lt_iff₀ hKq]
    exact_mod_cast hcore.2


theorem log_two_nine_fifths : Int.log 2 (9 / 5 : ℚ) = 0 :=
  log_two_eq _ (by norm_num) 0 (by norm_num) (by norm_num)

/-- The IEEE double nearest to 1.8 is `8106479329266893 / 2 ^ 52`. -/
theorem roundBinary_double_literal :
    roundBinary 53 (9 / 5) = ((8106479329266893 : ℤ) : ℚ) / ((4503599627370496 : ℤ) : ℚ) := by
  rw [(roundBinary_of_log 53 (9 / 5) (by norm_num) 52 (by rw [log_two_nine_fifths]; norm_num)).1,
    roundHalfEven_eq _ 8106479329266893 (by norm_num) (by norm_num)]
  norm_num

/-- The IEEE single nearest to 1.8 is `15099494 / 2 ^ 23`. -/
theorem roundBinary_single_literal :
    roundBinary 24 (9 / 5) = ((15099494 : ℤ) : ℚ) / ((8388608 : ℤ) : ℚ) := by
  rw [(roundBinary_of_log 24 (9 / 5) (by norm_num) 23 (by rw [log_two_nine_fifths]; norm_num)).1,
    roundHalfEven_eq _ 15099494 (by norm_num) (by norm_num)]
  norm_num

theorem stepDelay_nonneg_eq (t : ℤ) (ht : 0 ≤ t) : stepDelay t = 5 * t / 9 := by
  unfold stepDelay
  rw [Int.tdiv_eq_ediv (by omega) (by norm_num)]
  omega

theorem truncate_of_floor_nonneg (x : ℚ) (h : 0 ≤ ⌊x⌋) : truncate x = ⌊x⌋ := by
  unfold truncate
  rw [if_pos]
  exact le_trans (by exact_mod_cast h) (Int.floor_le x)

theorem stepDelayFloat_zero (p : ℕ) : stepDelayFloat p 0 = 0 := by
  simp [stepDelayFloat, roundBinary, truncate]

/-- In IEEE double arithmetic `timeStep / 1.8` truncates to the exact quotient
truncated, for every `timeStep` of a 32-bit `int` that is not negative. -/
theorem stepDelayFloat_double (t : ℤ) (h0 : 0 ≤ t) (h1 : t < 2 ^ 31) :
    stepDelayFloat 53 t = stepDelay t := by
  rw [stepDelay_nonneg_eq t h0]
  rcases h0.eq_or_lt with h | h
  · rw [← h]; simp [stepDelayFloat_zero]
  · have hfl := roundBinary_div_floor 53 4503599627370496 8106479329266893 1 t (by norm_num)
      (by norm_num) h (by norm_num) (by norm_num) (by omega)
    unfold stepDelayFloat
    rw [roundBinary_double_literal, roundBinary_intCast 53 t h
      (by have : (t : ℚ) < 2 ^ 31 := by exact_mod_cast h1
          norm_num at this ⊢; linarith)]
    rw [truncate_of_floor_nonneg _ (by rw [hfl]; omega), hfl]

/-- In IEEE single arithmetic `timeStep / 1.8` truncates to the exact quotient
truncated, for every `timeStep` from 0 to `2 ^ 21`, which covers the
non-negative values of a 16-bit `int`. -/
theorem stepDelayFloat_single (t : ℤ) (h0 : 0 ≤ t) (h1 : t ≤ 2 ^ 21) :
    stepDelayFloat 24 t = stepDelay t := by
  rw [stepDelay_nonneg_eq t h0]
  rcases h0.eq_or_lt with h | h
  · rw [← h]; simp [stepDelayFloat_zero]
  · have hfl := roundBinary_div_floor 24 8388608 15099494 (-2) t (by norm_num)
      (by norm_num) h (by norm_num) (by norm_num) (by omega)
    unfold stepDelayFloat
    rw [roundBinary_single_literal, roundBinary_intCast 24 t h
      (by have : (t : ℚ) ≤ 2 ^ 21 := by exact_mod_cast h1
          norm_num at this ⊢; linarith)]
    rw [truncate_of_floor_nonneg _ (by rw [hfl]; omega), hfl]

theorem clampTarget_duration (s : EX_Servo) :
    (clampTarget s).m_nCurrentDuration = s.m_nCurrentDuration := by
  unfold clampTarget
  split_ifs <;> rfl

theorem clampTarget_intWidth (s : EX_Servo) : (clampTarget s).intWidth = s.intWidth := by
  unfold clampTarget
  split_ifs <;> rfl

theorem moveServo_delays (s : EX_Servo) :
    delays (moveServo s).2 =
      if s.m_nTargetAngle = s.m_nOldAngle then [1000]
      else List.replicate (s.m_nTargetAngle - s.m_nOldAngle).natAbs
        (stepDelay ((wrapInt s.intWidth (s.m_nCurrentDuration * 1000)).tdiv 100)) := by
  by_cases h : s.m_nTargetAngle = s.m_nOldAngle
  · rw [if_pos h, moveServo_snd_eq _ h]; rfl
  · rw [if_neg h]
    unfold moveServo
    rw [if_neg h]
    simp only [stepLoop_delays]
    congr 1
    rcases le_total 0 (s.m_nTargetAngle - s.m_nOldAngle) with h0 | h0
    · rw [abs_of_nonneg h0]; omega
    · rw [abs_of_nonpos h0]; omega

theorem writeAngleToPin_delays (s : EX_Servo) :
    delays (writeAngleToPin s).2 =
      if (clampTarget s).m_nTargetAngle = s.m_nOldAngle then [1000]
      else List.replicate ((clampTarget s).m_nTargetAngle - s.m_nOldAngle).natAbs
        (stepDelay ((wrapInt s.intWidth (s.m_nCurrentDuration * 1000)).tdiv 100)) := by
  rw [writeAngleToPin_snd, delays_append, delays_append, clampTarget_attached]
  have h1 : delays (if s.servoAttached then [] else [Event.attach s.m_nPinPWM]) = [] := by
    split_ifs <;> rfl
  have h2 : delays (if s.m_bDetachAfterMove then [Event.detach] else []) = [] := by
    split_ifs <;> rfl
  rw [h1, h2, moveServo_delays]
  simp only [List.nil_append, List.append_nil, clampTarget_old, clampTarget_duration,
    clampTarget_intWidth]

theorem beSmart_delays (s : EX_Servo) (L D : Int) :
    delays (beSmart s L D).2 = delays (writeAngleToPin (acceptCommand s L D)).2 := by
  simp only [beSmart, refresh, delays_append, delays, List.append_nil]

theorem timeStep_eq (D : Int) : (D * 1000).tdiv 100 = 10 * D := by
  have h : D * 1000 = 100 * (10 * D) := by ring
  rw [h, Int.mul_tdiv_cancel_left _ (by norm_num)]

/-- The `timeStep` of line 60 when the product `D * 1000` stays in `int`. -/
theorem timeStep_wrap_eq (w : IntWidth) (D : Int) (h1 : intMin w ≤ D * 1000)
    (h2 : D * 1000 ≤ intMax w) : (wrapInt w (D * 1000)).tdiv 100 = 10 * D := by
  rw [wrapInt_of_inRange w _ h1 h2, timeStep_eq]

/-! ## Reading the command string -/


theorem indexOf_nonneg_of_mem (ch : Char) (cs : List Char) (h : ch ∈ cs) : 0 ≤ indexOf ch cs := by
  induction cs with
  | nil => simp at h
  | cons c cs ih =>
    unfold indexOf
    by_cases hc : c = ch
    · simp [hc]
    · have hmem : ch ∈ cs := by
        rcases List.mem_cons.mp h with h1 | h1
        · exact absurd h1.symm hc
        · exact h1
      have := ih hmem
      rw [if_neg hc, if_neg (by omega)]
      omega

theorem indexOf_append (ch : Char) (pre rest : List Char) (h : ch ∉ pre) :
    indexOf ch (pre ++ ch :: rest) = pre.length := by
  induction pre with
  | nil => simp [indexOf]
  | cons c cs ih =>
    have hc : c ≠ ch := fun e => h (by simp [e])
    have hcs : ch ∉ cs := fun e => h (by simp [e])
    have h1 : indexOf ch (cs ++ ch :: rest) = cs.length := ih hcs
    have h2 : indexOf ch ((c :: cs) ++ ch :: rest) =
        if indexOf ch (cs ++ ch :: rest) < 0 then -1 else indexOf ch (cs ++ ch :: rest) + 1 := by
      rw [List.cons_append, indexOf, if_neg hc]
    rw [h2, h1, if_neg (by omega), List.length_cons]
    push_cast
    ring

theorem substring_mid (pre mid post : List Char) :
    substring (pre ++ mid ++ post) pre.length (pre.length + mid.length : Nat) = mid := by
  unfold substring
  have h1 : ¬ ((pre.length : Int) < 0) := by omega
  have h2 : ¬ (((pre.length + mid.length : Nat) : Int) < 0) := by omega
  rw [if_neg h1, if_neg h2]
  simp only [Int.toNat_ofNat]
  rw [max_eq_right (by omega), min_eq_left (by omega)]
  rw [← List.length_append, List.take_left' rfl, List.drop_left' rfl]

theorem substringFrom_post (pre post : List Char) :
    substringFrom (pre ++ post) pre.length = post := by
  have h := substring_mid pre post []
  rw [List.append_nil] at h
  unfold substringFrom
  rw [List.length_append]
  exact h

theorem digitChar_facts : ∀ k : Nat, k < 10 →
    (Nat.digitChar k).isDigit = true ∧ (Nat.digitChar k).toNat - 48 = k ∧
      isspace (Nat.digitChar k) = false ∧ Nat.digitChar k ≠ '-' ∧ Nat.digitChar k ≠ '+' ∧
      Nat.digitChar k ≠ ':' := by
  decide

theorem toDigitsCore_spec (n : Nat) : ∀ (fuel : Nat) (ds : List Char), n < fuel →
    ∃ pre : List Char, Nat.toDigitsCore 10 fuel n ds = pre ++ ds ∧ pre ≠ [] ∧
      (∀ c ∈ pre, isspace c = false ∧ c ≠ '-' ∧ c ≠ '+' ∧ c ≠ ':') ∧
      ∀ (acc : Nat) (rest : List Char),
        readDigits acc (pre ++ rest) = readDigits (acc * 10 ^ pre.length + n) rest := by
  induction n using Nat.strong_induction_on with
  | _ n ih =>
    intro fuel ds hf
    obtain ⟨f, rfl⟩ : ∃ f, fuel = f + 1 := Nat.exists_eq_succ_of_ne_zero (by omega)
    have hd := digitChar_facts (n % 10) (Nat.mod_lt _ (by norm_num))
    unfold Nat.toDigitsCore
    by_cases h0 : n / 10 = 0
    · simp only [h0, if_true]
      refine ⟨[Nat.digitChar (n % 10)], rfl, by simp, ?_, ?_⟩
      · intro c hc
        rw [List.mem_singleton] at hc
        rw [hc]
        exact hd.2.2
      · intro acc rest
        simp only [List.singleton_append, readDigits, hd.1, if_true, hd.2.1, List.length_singleton,
          pow_one]
        congr 1
        omega
    · simp only [h0, if_false]
      obtain ⟨pre, hpre, _, hall, hread⟩ := ih (n / 10) (by omega) f
        (Nat.digitChar (n % 10) :: ds) (by omega)
      refine ⟨pre ++ [Nat.digitChar (n % 10)], by rw [hpre]; simp, by simp, ?_, ?_⟩
      · intro c hc
        rcases List.mem_append.mp hc with h1 | h1
        · exact hall c h1
        · rw [List.mem_singleton] at h1
          rw [h1]
          exact hd.2.2
      · intro acc rest
        rw [List.append_assoc, hread]
        simp only [List.singleton_append, readDigits, hd.1, if_true, hd.2.1, List.length_append,
          List.length_singleton, pow_succ]
        congr 1
        have := Nat.div_add_mod n 10
        nlinarith


theorem dropWhile_isspace_of_head (c : Char) (cs : List Char) (h : isspace c = false) :
    (c :: cs).dropWhile isspace = c :: cs := by
  simp [List.dropWhile, h]

theorem trim_eq_self (cs : List Char) (h : ∀ c ∈ cs, isspace c = false) : trim cs = cs := by
  unfold trim
  have h1 : cs.dropWhile isspace = cs := by
    cases cs with
    | nil => rfl
    | cons c cs => exact dropWhile_isspace_of_head c cs (h c (by simp))
  rw [h1]
  have h2 : cs.reverse.dropWhile isspace = cs.reverse := by
    cases hr : cs.reverse with
    | nil => rfl
    | cons c r =>
      have : c ∈ cs := by
        have : c ∈ cs.reverse := by rw [hr]; simp
        exact List.mem_reverse.mp this
      exact dropWhile_isspace_of_head c r (h c this)
  rw [h2, List.reverse_reverse]

theorem toInt_of_head (c : Char) (cs : List Char) (h1 : isspace c = false) (h2 : c ≠ '-')
    (h3 : c ≠ '+') : toInt (c :: cs) = (readDigits 0 (c :: cs) : Int) := by
  unfold toInt
  rw [dropWhile_isspace_of_head c cs h1]
  split
  · rename_i heq
    exact absurd (List.cons.inj heq).1 h2
  · rename_i heq
    exact absurd (List.cons.inj heq).1 h3
  · rfl

/-- Reading back the decimal text of a natural number gives the number. -/
theorem toInt_trim_decimal (n : Nat) : toInt (trim (toString n).data) = n := by
  have hdata : (toString n).data = Nat.toDigits 10 n := rfl
  obtain ⟨pre, hpre, hne, hall, hread⟩ := toDigitsCore_spec n (n + 1) [] (by omega)
  have hd : Nat.toDigits 10 n = pre := by
    unfold Nat.toDigits
    rw [hpre, List.append_nil]
  rw [hdata, hd, trim_eq_self pre (fun c hc => (hall c hc).1)]
  obtain ⟨c, cs, rfl⟩ := List.exists_cons_of_ne_nil hne
  have hc := hall c (by simp)
  rw [toInt_of_head c cs hc.1 hc.2.1 hc.2.2.1]
  have := hread 0 []
  rw [List.append_nil, zero_mul, zero_add] at this
  rw [this]
  rfl

theorem decimal_no_colon (n : Nat) : ':' ∉ (toString n).data := by
  have hdata : (toString n).data = Nat.toDigits 10 n := rfl
  obtain ⟨pre, hpre, _, hall, _⟩ := toDigitsCore_spec n (n + 1) [] (by omega)
  have hd : Nat.toDigits 10 n = pre := by
    unfold Nat.toDigits
    rw [hpre, List.append_nil]
  rw [hdata, hd]
  intro hmem
  exact (hall _ hmem).2.2.2 rfl

/-- The two fields `beSmart` reads from a command string whose first blank
comes before its first colon. -/
theorem parseCommand_fields (w : IntWidth) (pre mid post : String) (h1 : ' ' ∉ pre.data)
    (h2 : ':' ∉ pre.data) (h3 : ':' ∉ mid.data) :
    parseCommand w (pre ++ " " ++ mid ++ ":" ++ post) =
      (wrapInt w (toInt (trim mid.data)), wrapInt w (toInt (trim post.data))) := by
  have hdata : (pre ++ " " ++ mid ++ ":" ++ post).data =
      pre.data ++ ' ' :: (mid.data ++ ':' :: post.data) := by
    simp [String.data_append]
  have hsp : indexOf ' ' (pre.data ++ ' ' :: (mid.data ++ ':' :: post.data)) =
      pre.data.length := indexOf_append ' ' _ _ h1
  have hcol : indexOf ':' (pre.data ++ ' ' :: (mid.data ++ ':' :: post.data)) =
      ((pre.data ++ ' ' :: mid.data).length : Nat) := by
    have hnot : ':' ∉ pre.data ++ ' ' :: mid.data := by
      simp only [List.mem_append, List.mem_cons, not_or]
      exact ⟨h2, by decide, h3⟩
    have := indexOf_append ':' (pre.data ++ ' ' :: mid.data) post.data hnot
    rw [List.append_assoc, List.cons_append] at this
    exact this
  unfold parseCommand
  rw [hdata, hsp, hcol]
  have e1 : substring (pre.data ++ ' ' :: (mid.data ++ ':' :: post.data))
      ((pre.data.length : Int) + 1) ((pre.data ++ ' ' :: mid.data).length : Nat) = mid.data := by
    have := substring_mid (pre.data ++ [' ']) mid.data (':' :: post.data)
    simp only [List.append_assoc, List.singleton_append, List.length_append,
      List.length_singleton, List.length_cons, List.cons_append] at this ⊢
    push_cast at this ⊢
    have e : (pre.data.length : Int) + (mid.data.length + 1) =
        pre.data.length + 1 + mid.data.length := by ring
    rw [e]
    exact this
  have e2 : substringFrom (pre.data ++ ' ' :: (mid.data ++ ':' :: post.data))
      (((pre.data ++ ' ' :: mid.data).length : Nat) + 1) = post.data := by
    have := substringFrom_post (pre.data ++ ' ' :: mid.data ++ [':']) post.data
    simp only [List.append_assoc, List.singleton_append, List.length_append,
      List.length_singleton, List.length_cons, List.cons_append] at this ⊢
    push_cast at this ⊢
    exact this
  rw [e1, e2]

/-- The move from angle 0 to angle 180 that the command level 100 starts on an
object of angles 0 and 180 at rest at angle 0. -/
theorem full_sweep_trace (s : EX_Servo) (D : Int) (hz : s.m_nZeroLevelAngle = 0)
    (hb : s.m_nBenjLevelAngle = 180) (ht : s.m_nTargetAngle = 0) :
    (clampTarget (acceptCommand s 100 D)).m_nTargetAngle = 180 ∧
      (writes (beSmart s 100 D).2).length = 180 ∧
      delays (beSmart s 100 D).2 =
        List.replicate 180 (stepDelay ((wrapInt s.intWidth (D * 1000)).tdiv 100)) := by
  have hold : (acceptCommand s 100 D).m_nOldAngle = 0 := ht
  have hdur : (acceptCommand s 100 D).m_nCurrentDuration = D := rfl
  have hw : (acceptCommand s 100 D).intWidth = s.intWidth := rfl
  have htgt : (clampTarget (acceptCommand s 100 D)).m_nTargetAngle = 180 := by
    rw [clampTarget_value]
    simp only [acceptCommand, hz, hb]
    rw [wrapInt_small _ _ (by decide) (by decide)]
    decide
  refine ⟨htgt, ?_, ?_⟩
  · rw [beSmart_writes, writeAngleToPin_writes, htgt, hold]
    rfl
  · rw [beSmart_delays, writeAngleToPin_delays, htgt, hold, hdur, hw]
    rfl

/-! ## The claims -/

/-- C1 (the code departs from it): the object constructed at starting level
200 with the angles 0 and 180 holds `oldAngle = 360`; its first motion cycle,
run by `init`, clamps the target to 180 and steps down from 360, so the first
angle it writes is 359, outside 0..180, on either width of `int`. -/
theorem init_writes_out_of_range (w : IntWidth) :
    (writes (init (EX_Servo.new w "servo" 9 200 false 1000 0 180 0)).2).head? = some 359 ∧
      ¬ ∀ a ∈ writes (init (EX_Servo.new w "servo" 9 200 false 1000 0 180 0)).2,
        0 ≤ a ∧ a ≤ 180 := by
  have ht : (clampTarget (EX_Servo.new w "servo" 9 200 false 1000 0 180 0)).m_nTargetAngle
      = 180 := by
    cases w <;> decide
  have ho : (EX_Servo.new w "servo" 9 200 false 1000 0 180 0).m_nOldAngle = 360 := by
    cases w <;> decide
  have hw : writes (init (EX_Servo.new w "servo" 9 200 false 1000 0 180 0)).2 =
      (List.range 180).map (fun (k : Nat) => (360 : Int) - ((k : Int) + 1)) := by
    rw [init_writes, writeAngleToPin_writes, ht, ho]
    rfl
  rw [hw]
  refine ⟨rfl, fun h => ?_⟩
  have := h 359 (List.mem_map.mpr ⟨0, by simp, by norm_num⟩)
  omega

/-- C4: the level-to-angle mapping `map(L, 0, 100, zeroAngle, benjAngle)` is
`zeroAngle + L * (benjAngle - zeroAngle) / 100` with truncating division; it
sends level 0 to `zeroAngle` and level 100 to `benjAngle`, and on levels
`0 <= L1 <= L2 <= 100` it is non-decreasing when `benjAngle >= zeroAngle` and
non-increasing when `benjAngle <= zeroAngle`. -/
theorem map_endpoints_monotone (zeroAngle benjAngle : Int) :
    (∀ L : Int, map L 0 100 zeroAngle benjAngle =
      zeroAngle + (L * (benjAngle - zeroAngle)).tdiv 100) ∧
    map 0 0 100 zeroAngle benjAngle = zeroAngle ∧
    map 100 0 100 zeroAngle benjAngle = benjAngle ∧
    (∀ L1 L2 : Int, 0 ≤ L1 → L1 ≤ L2 → L2 ≤ 100 →
      (zeroAngle ≤ benjAngle →
        map L1 0 100 zeroAngle benjAngle ≤ map L2 0 100 zeroAngle benjAngle) ∧
      (benjAngle ≤ zeroAngle →
        map L2 0 100 zeroAngle benjAngle ≤ map L1 0 100 zeroAngle benjAngle)) := by
  refine ⟨fun L => map_level L _ _, by simp [map], ?_, ?_⟩
  · rw [map_level, Int.mul_tdiv_cancel_left _ (by norm_num)]
    ring
  · intro L1 L2 _ h12 _
    simp only [map_level]
    constructor
    · intro hzb
      have : L1 * (benjAngle - zeroAngle) ≤ L2 * (benjAngle - zeroAngle) :=
        mul_le_mul_of_nonneg_right h12 (by omega)
      have := tdiv_hundred_mono this
      omega
    · intro hbz
      have : L2 * (benjAngle - zeroAngle) ≤ L1 * (benjAngle - zeroAngle) :=
        mul_le_mul_of_nonpos_right h12 (by omega)
      have := tdiv_hundred_mono this
      omega

/-- C5, counterexample: on a 32-bit `int`, from the initialised object of
angles 0 and 180, the command level 1215752191 ends with `targetAngle = 0`,
where the mapped angle 2188353943 clamped into 0..180 is 180: the mapped angle
is converted to `int` before the clamp and becomes negative.  The same happens
on a 16-bit `int` at level 20000, whose mapped angle is 36000. -/
theorem beSmart_target_counterexample :
    (intMin IntWidth.w32 ≤ 1215752191 ∧ 1215752191 ≤ intMax IntWidth.w32) ∧
      (beSmart (init (EX_Servo.new IntWidth.w32 "servo" 9 50 false 1000 0 180 0)).1
        1215752191 1).1.m_nTargetAngle = 0 ∧
      max 0 (min 180 (map 1215752191 0 100 0 180)) = 180 ∧
      (intMin IntWidth.w16 ≤ 20000 ∧ 20000 ≤ intMax IntWidth.w16) ∧
      (beSmart (init (EX_Servo.new IntWidth.w16 "servo" 9 50 false 1000 0 180 0)).1
        20000 1).1.m_nTargetAngle = 0 ∧
      max 0 (min 180 (map 20000 0 100 0 180)) = 180 := by
  refine ⟨by decide, ?_, by decide, by decide, ?_, by decide⟩
  · simp only [beSmart_fst, writeAngleToPin_fst, clampTarget_value, acceptCommand, init_fst,
      EX_Servo.new]
    decide
  · simp only [beSmart_fst, writeAngleToPin_fst, clampTarget_value, acceptCommand, init_fst,
      EX_Servo.new]
    decide

/-- C5, amended: after `beSmart` with level `L` and duration `D` from any state
`s`, `currentLevel = L`, `currentDuration = D`, `oldAngle` is the `targetAngle`
of `s`, and `targetAngle` is the mapped angle of `L` converted to `int` and
then clamped into 0..180; whenever the mapped angle lies in the range of `int`
this is the mapped angle clamped into 0..180.  On either width of `int`, from
the object constructed with angles 0 and 180 at level 50 and initialised, the
command level 100, duration 2 ends with `targetAngle = 180`, `oldAngle = 90`
after the 90 one-degree steps 91, 92, ..., 180. -/
theorem beSmart_state (s : EX_Servo) (L D : Int) :
    (beSmart s L D).1.m_nCurrentLevel = L ∧
      (beSmart s L D).1.m_nCurrentDuration = D ∧
      (beSmart s L D).1.m_nOldAngle = s.m_nTargetAngle ∧
      (beSmart s L D).1.m_nTargetAngle =
        max 0 (min 180
          (wrapInt s.intWidth (map L 0 100 s.m_nZeroLevelAngle s.m_nBenjLevelAngle))) ∧
      (intMin s.intWidth ≤ map L 0 100 s.m_nZeroLevelAngle s.m_nBenjLevelAngle ∧
          map L 0 100 s.m_nZeroLevelAngle s.m_nBenjLevelAngle ≤ intMax s.intWidth →
        (beSmart s L D).1.m_nTargetAngle =
          max 0 (min 180 (map L 0 100 s.m_nZeroLevelAngle s.m_nBenjLevelAngle))) ∧
      (∀ (w : IntWidth) (name : String) (pin : Fin 256) (detach : Bool) (ms c0 : Int),
        (beSmart (init (EX_Servo.new w name pin 50 detach ms 0 180 c0)).1 100 2).1.m_nTargetAngle
            = 180 ∧
          (beSmart (init (EX_Servo.new w name pin 50 detach ms 0 180 c0)).1 100 2).1.m_nOldAngle
            = 90 ∧
          writes (beSmart (init (EX_Servo.new w name pin 50 detach ms 0 180 c0)).1 100 2).2 =
            (List.range 90).map (fun (k : Nat) => (90 : Int) + ((k : Int) + 1))) := by
  have htgt : (beSmart s L D).1.m_nTargetAngle =
      max 0 (min 180
        (wrapInt s.intWidth (map L 0 100 s.m_nZeroLevelAngle s.m_nBenjLevelAngle))) := by
    simp only [beSmart, refresh, writeAngleToPin_fst, clampTarget_value, acceptCommand]
  refine ⟨?_, ?_, ?_, htgt, ?_, ?_⟩
  · simp only [beSmart, refresh, acceptCommand, writeAngleToPin_fst]
  · simp only [beSmart, refresh, acceptCommand, writeAngleToPin_fst]
  · simp only [beSmart, refresh, acceptCommand, writeAngleToPin_fst]
  · rintro ⟨h1, h2⟩
    rw [htgt, wrapInt_of_inRange _ _ h1 h2]
  · intro w name pin detach ms c0
    have h0 : (init (EX_Servo.new w name pin 50 detach ms 0 180 c0)).1.m_nTargetAngle = 90 := by
      simp only [init, refresh, writeAngleToPin_fst, clampTarget_value, EX_Servo.new]
      cases w <;> decide
    have hz : (init (EX_Servo.new w name pin 50 detach ms 0 180 c0)).1.m_nZeroLevelAngle = 0 := by
      simp only [init, refresh, writeAngleToPin_fst, EX_Servo.new]
    have hb : (init (EX_Servo.new w name pin 50 detach ms 0 180 c0)).1.m_nBenjLevelAngle = 180 := by
      simp only [init, refresh, writeAngleToPin_fst, EX_Servo.new]
    generalize (init (EX_Servo.new w name pin 50 detach ms 0 180 c0)).1 = s0 at h0 hz hb
    have ht : (clampTarget (acceptCommand s0 100 2)).m_nTargetAngle = 180 := by
      simp only [clampTarget_value, acceptCommand, hz, hb]
      rw [wrapInt_small _ _ (by decide) (by decide)]
      decide
    have ho : (acceptCommand s0 100 2).m_nOldAngle = 90 := h0
    refine ⟨?_, ?_, ?_⟩
    · simp only [beSmart, refresh, writeAngleToPin_fst, ht]
    · simp only [beSmart, refresh, writeAngleToPin_fst, ho]
    · simp only [beSmart, refresh, writes_append, writes, List.append_nil,
        writeAngleToPin_writes, ht, ho]
      decide

/-- C6: when the clamped target angle equals `oldAngle`, the motion cycle
makes one write, of the target angle, followed by one delay of 1000 ms, with
only the attach before and the detach after it when they are due; there is no
other write and no other delay. -/
theorem writeAngleToPin_zero_distance (s : EX_Servo)
    (h : (clampTarget s).m_nTargetAngle = s.m_nOldAngle) :
    (writeAngleToPin s).2 =
        (if s.servoAttached then [] else [Event.attach s.m_nPinPWM]) ++
          [Event.write (clampTarget s).m_nTargetAngle, Event.delay 1000] ++
          (if s.m_bDetachAfterMove then [Event.detach] else []) ∧
      writes (writeAngleToPin s).2 = [(clampTarget s).m_nTargetAngle] ∧
      delays (writeAngleToPin s).2 = [1000] := by
  have ht : (writeAngleToPin s).2 =
      (if s.servoAttached then [] else [Event.attach s.m_nPinPWM]) ++
        [Event.write (clampTarget s).m_nTargetAngle, Event.delay 1000] ++
        (if s.m_bDetachAfterMove then [Event.detach] else []) := by
    rw [writeAngleToPin_snd, clampTarget_attached, moveServo_snd_eq _ (by simpa [clampTarget_old] using h)]
  refine ⟨ht, ?_, ?_⟩
  · rw [writeAngleToPin_writes, if_pos h]
  · rw [ht]
    cases s.servoAttached <;> cases s.m_bDetachAfterMove <;> rfl

/-- A detached servo constructed at level 50 of the range 0..180: target and
`oldAngle` are both 90, and the cycle is attach, write 90, delay 1000. -/
theorem writeAngleToPin_zero_distance_witness :
    (clampTarget (EX_Servo.new IntWidth.w16 "servo" 9 50 false 1000 0 180 0)).m_nTargetAngle =
      (EX_Servo.new IntWidth.w16 "servo" 9 50 false 1000 0 180 0).m_nOldAngle ∧
    (writeAngleToPin (EX_Servo.new IntWidth.w16 "servo" 9 50 false 1000 0 180 0)).2 =
      [Event.attach 9, Event.write 90, Event.delay 1000] :=
  ⟨by decide,
    (writeAngleToPin_zero_distance (EX_Servo.new IntWidth.w16 "servo" 9 50 false 1000 0 180 0) (by decide)).1⟩

/-- C7: after a motion cycle the servo is attached exactly when
`detachAfterMove` is false, whatever its attach state was before; the calls of
the cycle are a part without any detach and with at least one write, followed
by a single detach when `detachAfterMove` is true and by nothing when it is
false. -/
theorem writeAngleToPin_detach (s : EX_Servo) :
    (writeAngleToPin s).1.servoAttached = (!s.m_bDetachAfterMove) ∧
      ∃ body : List Event,
        (writeAngleToPin s).2 =
          body ++ (if s.m_bDetachAfterMove then [Event.detach] else []) ∧
        Event.detach ∉ body ∧ writes body = writes (writeAngleToPin s).2 ∧
        writes body ≠ [] := by
  refine ⟨by rw [writeAngleToPin_fst], _, writeAngleToPin_snd s, ?_, ?_, ?_⟩
  · have := moveServo_no_detach (clampTarget { s with servoAttached := true })
    cases s.servoAttached <;> simp [this]
  · rw [writeAngleToPin_snd s, writes_append _ (if s.m_bDetachAfterMove then _ else _)]
    cases s.m_bDetachAfterMove <;> simp [writes]
  · intro hb
    have h1 := writeAngleToPin_last_write s
    rw [writeAngleToPin_snd s, writes_append _ (if s.m_bDetachAfterMove then _ else _), hb] at h1
    cases hd : s.m_bDetachAfterMove <;> simp [hd, writes] at h1

/-- C8: along any sequence of `init` and `beSmart` operations on a freshly
constructed object, no write happens while the servo is detached: every write
in the trace has an attach before it with no detach between the two. -/
theorem run_writes_attached (w : IntWidth) (name : String) (pin : Fin 256) (startingLevel : Int)
    (detach : Bool) (servoMoveTime zeroLevelAngle benjLevelAngle currentAngle0 : Int)
    (ops : List Op) :
    writesAttached false
        (run (EX_Servo.new w name pin startingLevel detach servoMoveTime zeroLevelAngle
          benjLevelAngle currentAngle0) ops).2 = true ∧
      ∀ (pre post : List Event) (a : Int),
        (run (EX_Servo.new w name pin startingLevel detach servoMoveTime zeroLevelAngle
          benjLevelAngle currentAngle0) ops).2 = pre ++ Event.write a :: post →
        ∃ (p1 : List Event) (pin1 : Fin 256) (p2 : List Event),
          pre = p1 ++ Event.attach pin1 :: p2 ∧ Event.detach ∉ p2 := by
  have h := (run_attached (EX_Servo.new w name pin startingLevel detach servoMoveTime
    zeroLevelAngle benjLevelAngle currentAngle0) ops).1
  have h' : writesAttached false
      (run (EX_Servo.new w name pin startingLevel detach servoMoveTime zeroLevelAngle
        benjLevelAngle currentAngle0) ops).2 = true := h
  refine ⟨h', ?_⟩
  intro pre post a hsplit
  rw [hsplit] at h'
  exact attachedAfter_true_split pre (writesAttached_write false pre post a h')

/-- C9 (the code departs from it): for the object constructed at starting level
200 with the angles 0 and 180 the first motion cycle, run by `init`, is not a
zero-distance move: it makes 180 writes, the stepping loop from 360 down to the
clamped target 180, on either width of `int`. -/
theorem init_first_cycle_steps (w : IntWidth) :
    (writes (init (EX_Servo.new w "servo" 9 200 false 1000 0 180 0)).2).length = 180 ∧
      (init (EX_Servo.new w "servo" 9 200 false 1000 0 180 0)).1.m_nOldAngle = 360 ∧
      (init (EX_Servo.new w "servo" 9 200 false 1000 0 180 0)).1.m_nTargetAngle = 180 := by
  have ht : (clampTarget (EX_Servo.new w "servo" 9 200 false 1000 0 180 0)).m_nTargetAngle
      = 180 := by
    cases w <;> decide
  have ho : (EX_Servo.new w "servo" 9 200 false 1000 0 180 0).m_nOldAngle = 360 := by
    cases w <;> decide
  refine ⟨?_, ?_, ?_⟩
  · rw [init_writes, writeAngleToPin_writes, ht, ho]
    rfl
  · simp only [init, refresh, writeAngleToPin_fst, ho]
  · simp only [init, refresh, writeAngleToPin_fst, ht]

/-- C10, counterexample: on a 16-bit `int` the constructor called with
starting level 20000 and the angles 0 and 180 stores `targetAngle = -29536`,
not the mapped angle 36000; on a 32-bit `int`, with starting level 2147483647,
it stores -429496732, not 3865470564.  The mapped angle is converted to
`int`. -/
theorem new_target_counterexample :
    (intMin IntWidth.w16 ≤ 20000 ∧ 20000 ≤ intMax IntWidth.w16) ∧
      (EX_Servo.new IntWidth.w16 "servo" 9 20000 false 1000 0 180 0).m_nTargetAngle = -29536 ∧
      (0 : Int) + ((20000 : Int) * (180 - 0)).tdiv 100 = 36000 ∧
      (intMin IntWidth.w32 ≤ 2147483647 ∧ 2147483647 ≤ intMax IntWidth.w32) ∧
      (EX_Servo.new IntWidth.w32 "servo" 9 2147483647 false 1000 0 180 0).m_nTargetAngle
        = -429496732 ∧
      (0 : Int) + ((2147483647 : Int) * (180 - 0)).tdiv 100 = 3865470564 := by
  decide

/-- C10, amended: the constructor stores `startingLevel` as `currentLevel`, the
mapped angle `zeroLevelAngle + startingLevel * (benjLevelAngle - zeroLevelAngle) / 100`
(truncating division) converted to `int` as `targetAngle` and as `oldAngle`,
which is the mapped angle itself whenever that lies in the range of `int`, and
`servoMoveTime / 1000` (truncating) as `currentDuration`, which is 0 for
`0 <= servoMoveTime < 1000`; with angles 0 and 180 and level 50 the initial
target angle is 90. -/
theorem new_state (w : IntWidth) (name : String) (pin : Fin 256) (startingLevel : Int)
    (detach : Bool) (servoMoveTime zeroLevelAngle benjLevelAngle currentAngle0 : Int) :
    (EX_Servo.new w name pin startingLevel detach servoMoveTime zeroLevelAngle benjLevelAngle
        currentAngle0).m_nCurrentLevel = startingLevel ∧
      (EX_Servo.new w name pin startingLevel detach servoMoveTime zeroLevelAngle benjLevelAngle
        currentAngle0).m_nTargetAngle =
          wrapInt w
            (zeroLevelAngle + (startingLevel * (benjLevelAngle - zeroLevelAngle)).tdiv 100) ∧
      (intMin w ≤ zeroLevelAngle + (startingLevel * (benjLevelAngle - zeroLevelAngle)).tdiv 100 ∧
          zeroLevelAngle + (startingLevel * (benjLevelAngle - zeroLevelAngle)).tdiv 100
            ≤ intMax w →
        (EX_Servo.new w name pin startingLevel detach servoMoveTime zeroLevelAngle
          benjLevelAngle currentAngle0).m_nTargetAngle =
            zeroLevelAngle + (startingLevel * (benjLevelAngle - zeroLevelAngle)).tdiv 100) ∧
      (EX_Servo.new w name pin startingLevel detach servoMoveTime zeroLevelAngle benjLevelAngle
        currentAngle0).m_nOldAngle =
          (EX_Servo.new w name pin startingLevel detach servoMoveTime zeroLevelAngle benjLevelAngle
            currentAngle0).m_nTargetAngle ∧
      (EX_Servo.new w name pin startingLevel detach servoMoveTime zeroLevelAngle benjLevelAngle
        currentAngle0).m_nCurrentDuration = servoMoveTime.tdiv 1000 ∧
      (0 ≤ servoMoveTime ∧ servoMoveTime < 1000 →
        (EX_Servo.new w name pin startingLevel detach servoMoveTime zeroLevelAngle benjLevelAngle
          currentAngle0).m_nCurrentDuration = 0) ∧
      (EX_Servo.new w name pin 50 detach servoMoveTime 0 180 currentAngle0).m_nTargetAngle = 90 := by
  have htgt : (EX_Servo.new w name pin startingLevel detach servoMoveTime zeroLevelAngle
      benjLevelAngle currentAngle0).m_nTargetAngle =
        wrapInt w
          (zeroLevelAngle + (startingLevel * (benjLevelAngle - zeroLevelAngle)).tdiv 100) := by
    show wrapInt w (map startingLevel 0 100 zeroLevelAngle benjLevelAngle) = _
    rw [map_level]
  refine ⟨rfl, htgt, ?_, rfl, rfl, ?_, ?_⟩
  · rintro ⟨h1, h2⟩
    rw [htgt, wrapInt_of_inRange _ _ h1 h2]
  · rintro ⟨h0, h1⟩
    show servoMoveTime.tdiv 1000 = 0
    rw [Int.tdiv_eq_ediv h0 (by norm_num)]
    omega
  · show wrapInt w (map 50 0 100 0 180) = 90
    cases w <;> decide

/-- C11: `refresh` emits exactly one message, the name, a blank, and the
decimal `currentLevel`, `targetAngle` and `currentDuration` separated by
colons.  For the object named "name" constructed with angles 0 and 180 at
level 50, `init` reports "name 50:90:" followed by the duration of the
construction (1 for the default 1000 ms), and the command level 100,
duration 2 then reports "name 100:180:2". -/
theorem refresh_message (s : EX_Servo) :
    (refresh s).2 =
        [Event.send (s.name ++ " " ++ toString s.m_nCurrentLevel ++ ":" ++
          toString s.m_nTargetAngle ++ ":" ++ toString s.m_nCurrentDuration)] ∧
      (∀ (w : IntWidth) (pin : Fin 256) (detach : Bool) (ms c0 : Int),
        sends (init (EX_Servo.new w "name" pin 50 detach ms 0 180 c0)).2 =
          ["name 50:90:" ++ toString (ms.tdiv 1000)]) ∧
      (∀ (w : IntWidth) (pin : Fin 256) (detach : Bool) (c0 : Int),
        sends (init (EX_Servo.new w "name" pin 50 detach 1000 0 180 c0)).2 = ["name 50:90:1"]) ∧
      (∀ (w : IntWidth) (pin : Fin 256) (detach : Bool) (ms c0 : Int),
        sends (beSmart (init (EX_Servo.new w "name" pin 50 detach ms 0 180 c0)).1 100 2).2 =
          ["name 100:180:2"]) := by
  have hinit : ∀ (w : IntWidth) (pin : Fin 256) (detach : Bool) (ms c0 : Int),
      sends (init (EX_Servo.new w "name" pin 50 detach ms 0 180 c0)).2 =
        ["name 50:90:" ++ toString (ms.tdiv 1000)] := by
    intro w pin detach ms c0
    rw [init_sends, init_fst, writeAngleToPin_fst]
    simp only [refresh, sends, clampTarget_value, EX_Servo.new]
    have h90 : max 0 (min 180 (wrapInt w (map 50 0 100 0 180))) = 90 := by
      cases w <;> decide
    rw [h90]
    have hs : "name" ++ " " ++ toString (50 : Int) ++ ":" ++ toString (90 : Int) ++ ":" =
        "name 50:90:" := by decide
    rw [hs]
  refine ⟨rfl, hinit, ?_, ?_⟩
  · intro w pin detach c0
    rw [hinit]
    decide
  · intro w pin detach ms c0
    rw [beSmart_sends, beSmart_fst, writeAngleToPin_fst]
    simp only [refresh, sends, clampTarget_value, acceptCommand, init_fst, writeAngleToPin_fst,
      EX_Servo.new]
    have h180 : max 0 (min 180 (wrapInt w (map 100 0 100 0 180))) = 180 := by
      cases w <;> decide
    rw [h180]
    decide

/-- C12: in a motion cycle whose clamped target differs from `oldAngle`, with
a duration `D >= 0` whose product `D * 1000` does not overflow `int`,
`timeStep = D * 1000 / 100 = 10 * D`, and the delay requested after every one
of the steps is the same, `timeStep / 1.8` truncated, that is
`floor (50 * D / 9)` ms.  The floating-point evaluation of `timeStep / 1.8`
gives this value in IEEE double for every `D` with `D * 1000` in the range of a
32-bit `int`, and in IEEE single for every `D` with `D * 1000` in the range of
a 16-bit `int`.  For `D = 2`, `timeStep = 20` and the delay is 11 ms. -/
theorem step_delay_value (s : EX_Servo) (hD : 0 ≤ s.m_nCurrentDuration)
    (hov : s.m_nCurrentDuration * 1000 ≤ intMax s.intWidth)
    (hne : (clampTarget s).m_nTargetAngle ≠ s.m_nOldAngle) :
    (wrapInt s.intWidth (s.m_nCurrentDuration * 1000)).tdiv 100 = 10 * s.m_nCurrentDuration ∧
      (s.m_nCurrentDuration * 1000).tdiv 100 = 10 * s.m_nCurrentDuration ∧
      delays (writeAngleToPin s).2 =
        List.replicate ((clampTarget s).m_nTargetAngle - s.m_nOldAngle).natAbs
          (50 * s.m_nCurrentDuration / 9) ∧
      (delays (writeAngleToPin s).2).length = (writes (writeAngleToPin s).2).length ∧
      stepDelay ((s.m_nCurrentDuration * 1000).tdiv 100) = 50 * s.m_nCurrentDuration / 9 ∧
      (s.m_nCurrentDuration * 1000 < 2 ^ 31 →
        stepDelayFloat 53 ((s.m_nCurrentDuration * 1000).tdiv 100) =
          50 * s.m_nCurrentDuration / 9) ∧
      (s.m_nCurrentDuration * 1000 < 2 ^ 15 →
        stepDelayFloat 24 ((s.m_nCurrentDuration * 1000).tdiv 100) =
          50 * s.m_nCurrentDuration / 9) ∧
      ((2 : Int) * 1000).tdiv 100 = 20 ∧ stepDelay 20 = 11 ∧
      stepDelayFloat 53 20 = 11 ∧ stepDelayFloat 24 20 = 11 := by
  have hts := timeStep_eq s.m_nCurrentDuration
  have hlo : intMin s.intWidth ≤ s.m_nCurrentDuration * 1000 := by
    have := intMin_le s.intWidth
    omega
  have htw := timeStep_wrap_eq s.intWidth s.m_nCurrentDuration hlo hov
  have hsd : stepDelay ((s.m_nCurrentDuration * 1000).tdiv 100) =
      50 * s.m_nCurrentDuration / 9 := by
    rw [hts, stepDelay_nonneg_eq _ (by omega)]
    omega
  have hdl : delays (writeAngleToPin s).2 =
      List.replicate ((clampTarget s).m_nTargetAngle - s.m_nOldAngle).natAbs
        (50 * s.m_nCurrentDuration / 9) := by
    rw [writeAngleToPin_delays, if_neg hne, htw, ← hts, hsd]
  refine ⟨htw, hts, hdl, ?_, hsd, ?_, ?_, by decide, by decide, ?_, ?_⟩
  · rw [hdl, writeAngleToPin_writes, if_neg hne]
    simp
  · intro h
    rw [← hsd, hts]
    exact stepDelayFloat_double _ (by omega) (by omega)
  · intro h
    rw [← hsd, hts]
    exact stepDelayFloat_single _ (by omega) (by omega)
  · rw [stepDelayFloat_double 20 (by norm_num) (by norm_num)]; decide
  · rw [stepDelayFloat_single 20 (by norm_num) (by norm_num)]; decide

/-- The initialised object of angles 0 and 180 at level 50 on a 16-bit `int`,
once it has accepted the command level 100, duration 2: the product 2000 is in
range and the 90 steps each request a delay of 11 ms. -/
theorem step_delay_value_witness :
    0 ≤ (acceptCommand (init (EX_Servo.new IntWidth.w16 "servo" 9 50 false 1000 0 180 0)).1
        100 2).m_nCurrentDuration ∧
    (acceptCommand (init (EX_Servo.new IntWidth.w16 "servo" 9 50 false 1000 0 180 0)).1
        100 2).m_nCurrentDuration * 1000 ≤ intMax IntWidth.w16 ∧
    (clampTarget (acceptCommand
        (init (EX_Servo.new IntWidth.w16 "servo" 9 50 false 1000 0 180 0)).1 100 2)).m_nTargetAngle ≠
      (acceptCommand (init (EX_Servo.new IntWidth.w16 "servo" 9 50 false 1000 0 180 0)).1
        100 2).m_nOldAngle ∧
    delays (writeAngleToPin (acceptCommand
        (init (EX_Servo.new IntWidth.w16 "servo" 9 50 false 1000 0 180 0)).1 100 2)).2 =
      List.replicate 90 11 :=
  ⟨by decide, by decide, by decide,
    (step_delay_value
      (acceptCommand (init (EX_Servo.new IntWidth.w16 "servo" 9 50 false 1000 0 180 0)).1 100 2)
      (by decide) (by decide) (by decide)).2.2.1⟩

/-- C13 (the code departs from it): `getPWMPin` returns the stored pin, but
`getAngle`, `getLevel` and `getDuration` are declared with return type `bool`,
so each returns whether the stored value is non-zero.  For the object
constructed at level 50 of the range 0..180 with a move time of 2000 ms and
initialised, the stored values are 90, 50 and 2 and each of the three
accessors returns `true`, that is 1, on either width of `int`. -/
theorem accessors_return_bool (w : IntWidth) :
    (∀ s : EX_Servo, getPWMPin s = s.m_nPinPWM ∧
      getAngle s = decide (s.m_nTargetAngle ≠ 0) ∧
      getLevel s = decide (s.m_nCurrentLevel ≠ 0) ∧
      getDuration s = decide (s.m_nCurrentDuration ≠ 0)) ∧
    (init (EX_Servo.new w "servo" 9 50 false 2000 0 180 0)).1.m_nTargetAngle = 90 ∧
    boolValue (getAngle (init (EX_Servo.new w "servo" 9 50 false 2000 0 180 0)).1) = 1 ∧
    (init (EX_Servo.new w "servo" 9 50 false 2000 0 180 0)).1.m_nCurrentLevel = 50 ∧
    boolValue (getLevel (init (EX_Servo.new w "servo" 9 50 false 2000 0 180 0)).1) = 1 ∧
    (init (EX_Servo.new w "servo" 9 50 false 2000 0 180 0)).1.m_nCurrentDuration = 2 ∧
    boolValue (getDuration (init (EX_Servo.new w "servo" 9 50 false 2000 0 180 0)).1) = 1 := by
  refine ⟨fun s => ⟨rfl, rfl, rfl, rfl⟩, ?_, ?_, ?_, ?_, ?_, ?_⟩ <;> cases w <;> decide

/-- C15: after `init` and after any `beSmart` command, from any state and for
any level, `0 <= targetAngle <= 180`, and the one report the operation emits
carries that `targetAngle` as its angle field; the bound holds after every
non-empty sequence of operations on any constructed object. -/
theorem exec_target_in_range (s : EX_Servo) (op : Op) :
    (0 ≤ (op.exec s).1.m_nTargetAngle ∧ (op.exec s).1.m_nTargetAngle ≤ 180) ∧
      sends (op.exec s).2 =
        [(op.exec s).1.name ++ " " ++ toString (op.exec s).1.m_nCurrentLevel ++ ":" ++
          toString (op.exec s).1.m_nTargetAngle ++ ":" ++
          toString (op.exec s).1.m_nCurrentDuration] ∧
      (∀ (w : IntWidth) (name : String) (pin : Fin 256) (startingLevel : Int) (detach : Bool)
        (servoMoveTime zeroLevelAngle benjLevelAngle currentAngle0 : Int) (ops : List Op),
        0 ≤ (run (EX_Servo.new w name pin startingLevel detach servoMoveTime zeroLevelAngle
            benjLevelAngle currentAngle0) (ops ++ [op])).1.m_nTargetAngle ∧
          (run (EX_Servo.new w name pin startingLevel detach servoMoveTime zeroLevelAngle
            benjLevelAngle currentAngle0) (ops ++ [op])).1.m_nTargetAngle ≤ 180) := by
  refine ⟨exec_target_range s op, ?_, ?_⟩
  · cases op with
    | init => exact init_sends s
    | beSmart L D => exact beSmart_sends s L D
  · intro w name pin startingLevel detach servoMoveTime zeroLevelAngle benjLevelAngle
      currentAngle0 ops
    rw [run_append]
    simp only [run]
    exact exec_target_range _ op

/-- C16: `refresh` returns the state it was given, with every field unchanged,
its only call is one `sendSmartString` (no attach, write, detach or delay),
and a second `refresh` emits the same message as the first. -/
theorem refresh_frame (s : EX_Servo) :
    (refresh s).1 = s ∧
      (∃ msg : String, (refresh s).2 = [Event.send msg]) ∧
      writes (refresh s).2 = [] ∧ delays (refresh s).2 = [] ∧
      attachedAfter s.servoAttached (refresh s).2 = s.servoAttached ∧
      (refresh (refresh s).1).2 = (refresh s).2 := by
  exact ⟨rfl, ⟨_, rfl⟩, rfl, rfl, rfl, rfl⟩

/-- C17, counterexample: on a 16-bit `int`, a full sweep commanded with
duration 6554 on the initialised object of angles 0 and 180 at level 0 makes
180 steps with a delay of 2 ms each, 360 ms in all, where
`180 * floor (50 * 6554 / 9)` is 6553980 and `1000 * 6554 - 180` is 6553820: the
product `6554 * 1000` overflows `int` and `timeStep` is 4.  On a 32-bit `int`
the same happens at duration 429496730. -/
theorem full_sweep_overflow_counterexample :
    (0 ≤ (6554 : Int) ∧ (6554 : Int) ≤ intMax IntWidth.w16) ∧
      (wrapInt IntWidth.w16 (6554 * 1000)).tdiv 100 = 4 ∧
      delays (beSmart (init (EX_Servo.new IntWidth.w16 "servo" 9 0 false 1000 0 180 0)).1
        100 6554).2 = List.replicate 180 2 ∧
      (delays (beSmart (init (EX_Servo.new IntWidth.w16 "servo" 9 0 false 1000 0 180 0)).1
        100 6554).2).sum = 360 ∧
      180 * ((50 : Int) * 6554 / 9) = 6553980 ∧ (1000 : Int) * 6554 - 180 = 6553820 ∧
      (0 ≤ (429496730 : Int) ∧ (429496730 : Int) ≤ intMax IntWidth.w32) ∧
      (wrapInt IntWidth.w32 (429496730 * 1000)).tdiv 100 = 4 ∧
      delays (beSmart (init (EX_Servo.new IntWidth.w32 "servo" 9 0 false 1000 0 180 0)).1
        100 429496730).2 = List.replicate 180 2 := by
  have h16 := (full_sweep_trace (init (EX_Servo.new IntWidth.w16 "servo" 9 0 false 1000 0 180 0)).1
    6554 (by decide) (by decide) (by decide)).2.2
  have h32 := (full_sweep_trace (init (EX_Servo.new IntWidth.w32 "servo" 9 0 false 1000 0 180 0)).1
    429496730 (by decide) (by decide) (by decide)).2.2
  have v16 : stepDelay ((wrapInt
      (init (EX_Servo.new IntWidth.w16 "servo" 9 0 false 1000 0 180 0)).1.intWidth
      (6554 * 1000)).tdiv 100) = 2 := by decide
  have v32 : stepDelay ((wrapInt
      (init (EX_Servo.new IntWidth.w32 "servo" 9 0 false 1000 0 180 0)).1.intWidth
      (429496730 * 1000)).tdiv 100) = 2 := by decide
  rw [v16] at h16
  rw [v32] at h32
  refine ⟨by decide, by decide, h16, ?_, by decide, by decide, by decide, by decide, h32⟩
  rw [h16, List.sum_replicate]
  decide

/-- C17, amended: with the angles 0 and 180, a command to level 100 with a
duration `D >= 0` whose product `D * 1000` does not overflow `int`, issued at
rest at level 0 (angle 0), moves from `oldAngle = 0` to `targetAngle = 180` in
180 steps; their delays are all `floor (50 * D / 9)` ms and sum to
`180 * floor (50 * D / 9)` ms, which is at most `1000 * D` and more than
`1000 * D - 180`; within that range of durations the per-step delay is
monotone in the duration, and it is the value IEEE double and single
arithmetic give for `timeStep / 1.8` within the range of a 32-bit,
respectively 16-bit `int`. -/
theorem full_sweep_delays (s : EX_Servo) (D : Int) (hz : s.m_nZeroLevelAngle = 0)
    (hb : s.m_nBenjLevelAngle = 180) (ht : s.m_nTargetAngle = 0) (hD : 0 ≤ D)
    (hov : D * 1000 ≤ intMax s.intWidth) :
    (acceptCommand s 100 D).m_nOldAngle = 0 ∧
      (beSmart s 100 D).1.m_nTargetAngle = 180 ∧
      (writes (beSmart s 100 D).2).length = 180 ∧
      delays (beSmart s 100 D).2 = List.replicate 180 (50 * D / 9) ∧
      (delays (beSmart s 100 D).2).sum = 180 * (50 * D / 9) ∧
      180 * (50 * D / 9) ≤ 1000 * D ∧ 1000 * D - 180 < 180 * (50 * D / 9) ∧
      (∀ D1 D2 : Int, 0 ≤ D1 → D1 ≤ D2 → D2 * 1000 ≤ intMax s.intWidth →
        stepDelay ((wrapInt s.intWidth (D1 * 1000)).tdiv 100) ≤
          stepDelay ((wrapInt s.intWidth (D2 * 1000)).tdiv 100)) ∧
      (D * 1000 < 2 ^ 31 →
        stepDelayFloat 53 ((wrapInt s.intWidth (D * 1000)).tdiv 100) = 50 * D / 9) ∧
      (D * 1000 < 2 ^ 15 →
        stepDelayFloat 24 ((wrapInt s.intWidth (D * 1000)).tdiv 100) = 50 * D / 9) := by
  have hold : (acceptCommand s 100 D).m_nOldAngle = 0 := ht
  obtain ⟨htgt, hwr, hdel⟩ := full_sweep_trace s D hz hb ht
  have hmin := intMin_le s.intWidth
  have htw := timeStep_wrap_eq s.intWidth D (by omega) hov
  have hsd : stepDelay ((wrapInt s.intWidth (D * 1000)).tdiv 100) = 50 * D / 9 := by
    rw [htw, stepDelay_nonneg_eq _ (by omega)]
    omega
  have hdl : delays (beSmart s 100 D).2 = List.replicate 180 (50 * D / 9) := by
    rw [hdel, hsd]
  refine ⟨hold, ?_, hwr, hdl, ?_, by omega, by omega, ?_, ?_, ?_⟩
  · rw [beSmart_fst, writeAngleToPin_fst]
    exact htgt
  · rw [hdl, List.sum_replicate]
    simp
  · intro D1 D2 h1 h2 h3
    rw [timeStep_wrap_eq s.intWidth D1 (by omega) (by omega),
      timeStep_wrap_eq s.intWidth D2 (by omega) h3, stepDelay_nonneg_eq _ (by omega),
      stepDelay_nonneg_eq _ (by omega)]
    omega
  · intro h
    rw [← hsd, htw]
    exact stepDelayFloat_double _ (by omega) (by omega)
  · intro h
    rw [← hsd, htw]
    exact stepDelayFloat_single _ (by omega) (by omega)

/-- The object constructed at level 0 of the range 0..180 on a 16-bit `int`
and initialised, commanded to level 100 with duration 2: the product 2000 is in
range, and there are 180 delays of 11 ms, 1980 ms in all. -/
theorem full_sweep_delays_witness :
    (init (EX_Servo.new IntWidth.w16 "servo" 9 0 false 1000 0 180 0)).1.m_nTargetAngle = 0 ∧
      (2 : Int) * 1000 ≤ intMax IntWidth.w16 ∧
      delays (beSmart (init (EX_Servo.new IntWidth.w16 "servo" 9 0 false 1000 0 180 0)).1
        100 2).2 = List.replicate 180 11 ∧
      (delays (beSmart (init (EX_Servo.new IntWidth.w16 "servo" 9 0 false 1000 0 180 0)).1
        100 2).2).sum = 1980 :=
  ⟨by decide, by decide,
    (full_sweep_delays (init (EX_Servo.new IntWidth.w16 "servo" 9 0 false 1000 0 180 0)).1 2
      (by decide) (by decide) (by decide) (by decide) (by decide)).2.2.2.1,
    (full_sweep_delays (init (EX_Servo.new IntWidth.w16 "servo" 9 0 false 1000 0 180 0)).1 2
      (by decide) (by decide) (by decide) (by decide) (by decide)).2.2.2.2.1⟩

/-- C18, counterexample: in "a:b 50:2" the text between the first blank and
the first colon after it is "50" and the text after that colon is "2", yet
`beSmart` reads level 0 and duration 0: `indexOf(':')` finds the colon of the
prefix, which comes before the blank.  And the level of "servo 99999999999:1"
is stored as 1215752191 on a 32-bit `int`, that of "servo 40000:1" as -25536
on a 16-bit `int`: the value read is converted to `int`. -/
theorem parseCommand_colon_before_blank :
    "a:b 50:2" = "a:b" ++ " " ++ "50" ++ ":" ++ "2" ∧ ' ' ∉ "a:b".data ∧ ':' ∉ "50".data ∧
      toInt (trim "50".data) = 50 ∧ toInt (trim "2".data) = 2 ∧
      parseCommand IntWidth.w16 "a:b 50:2" = (0, 0) ∧
      parseCommand IntWidth.w32 "a:b 50:2" = (0, 0) ∧
      (beSmartString (init (EX_Servo.new IntWidth.w16 "servo" 9 50 false 1000 0 180 0)).1
        "a:b 50:2").1.m_nCurrentLevel = 0 ∧
      (beSmartString (init (EX_Servo.new IntWidth.w16 "servo" 9 50 false 1000 0 180 0)).1
        "a:b 50:2").1.m_nCurrentDuration = 0 ∧
      toInt (trim "99999999999".data) = 99999999999 ∧
      parseCommand IntWidth.w32 "servo 99999999999:1" = (1215752191, 1) ∧
      (beSmartString (init (EX_Servo.new IntWidth.w32 "servo" 9 50 false 1000 0 180 0)).1
        "servo 99999999999:1").1.m_nCurrentLevel = 1215752191 ∧
      parseCommand IntWidth.w16 "servo 40000:1" = (-25536, 1) := by
  have hp : parseCommand IntWidth.w16 "a:b 50:2" = (0, 0) := by decide
  have hq : parseCommand IntWidth.w32 "servo 99999999999:1" = (1215752191, 1) := by
    have h := parseCommand_fields IntWidth.w32 "servo" "99999999999" "1" (by decide) (by decide)
      (by decide)
    have e : "servo" ++ " " ++ "99999999999" ++ ":" ++ "1" = "servo 99999999999:1" := by decide
    rw [e] at h
    rw [h]
    decide
  have hw16 : (init (EX_Servo.new IntWidth.w16 "servo" 9 50 false 1000 0 180 0)).1.intWidth
      = IntWidth.w16 := by decide
  have hw32 : (init (EX_Servo.new IntWidth.w32 "servo" 9 50 false 1000 0 180 0)).1.intWidth
      = IntWidth.w32 := by decide
  refine ⟨by decide, by decide, by decide, by decide, by decide, hp, by decide, ?_, ?_,
    by decide, hq, ?_, by decide⟩
  · simp only [beSmartString, hw16, hp, beSmart_fst, writeAngleToPin_fst, acceptCommand]
  · simp only [beSmartString, hw16, hp, beSmart_fst, writeAngleToPin_fst, acceptCommand]
  · simp only [beSmartString, hw32, hq, beSmart_fst, writeAngleToPin_fst, acceptCommand]

/-- C18, amended: for a command string `pre ++ " " ++ mid ++ ":" ++ post` in
which `pre` holds neither a blank nor a colon and `mid` holds no colon (its
first colon comes after its first blank), `beSmart` takes as level the integer
value of `mid` and as duration the integer value of `post`, both read with
surrounding whitespace ignored and 0 for text without digits, and both
converted to `int`; in particular for natural numbers `L` and `D` in the range
of `int` the string `pre ++ " " ++ decimal L ++ ":" ++ decimal D` sets
`currentLevel = L` and `currentDuration = D`. -/
theorem beSmartString_fields (s : EX_Servo) (pre mid post : String) (h1 : ' ' ∉ pre.data)
    (h2 : ':' ∉ pre.data) (h3 : ':' ∉ mid.data) :
    beSmartString s (pre ++ " " ++ mid ++ ":" ++ post) =
        beSmart s (wrapInt s.intWidth (toInt (trim mid.data)))
          (wrapInt s.intWidth (toInt (trim post.data))) ∧
      (beSmartString s (pre ++ " " ++ mid ++ ":" ++ post)).1.m_nCurrentLevel =
        wrapInt s.intWidth (toInt (trim mid.data)) ∧
      (beSmartString s (pre ++ " " ++ mid ++ ":" ++ post)).1.m_nCurrentDuration =
        wrapInt s.intWidth (toInt (trim post.data)) ∧
      (∀ L D : Nat,
        beSmartString s (pre ++ " " ++ toString L ++ ":" ++ toString D) =
            beSmart s (wrapInt s.intWidth L) (wrapInt s.intWidth D) ∧
          ((L : Int) ≤ intMax s.intWidth → (D : Int) ≤ intMax s.intWidth →
            beSmartString s (pre ++ " " ++ toString L ++ ":" ++ toString D) = beSmart s L D ∧
              (beSmartString s
                (pre ++ " " ++ toString L ++ ":" ++ toString D)).1.m_nCurrentLevel = L ∧
              (beSmartString s
                (pre ++ " " ++ toString L ++ ":" ++ toString D)).1.m_nCurrentDuration = D)) := by
  have hb : ∀ (m q : String), ':' ∉ m.data →
      beSmartString s (pre ++ " " ++ m ++ ":" ++ q) =
        beSmart s (wrapInt s.intWidth (toInt (trim m.data)))
          (wrapInt s.intWidth (toInt (trim q.data))) := by
    intro m q hm
    unfold beSmartString
    rw [parseCommand_fields s.intWidth pre m q h1 h2 hm]
  have hl : ∀ x y : Int, (beSmart s x y).1.m_nCurrentLevel = x ∧
      (beSmart s x y).1.m_nCurrentDuration = y := by
    intro x y
    simp only [beSmart_fst, writeAngleToPin_fst, acceptCommand, and_self]
  refine ⟨hb mid post h3, ?_, ?_, ?_⟩
  · rw [hb mid post h3]; exact (hl _ _).1
  · rw [hb mid post h3]; exact (hl _ _).2
  · intro L D
    have h := hb (toString L) (toString D) (decimal_no_colon L)
    rw [toInt_trim_decimal, toInt_trim_decimal] at h
    refine ⟨h, ?_⟩
    intro hL hD'
    have hmin := intMin_le s.intWidth
    rw [h, wrapInt_of_inRange _ _ (by omega) hL, wrapInt_of_inRange _ _ (by omega) hD']
    exact ⟨rfl, hl _ _⟩

/-- The command "servo1 100:2" on the initialised object of angles 0 and 180 at
level 50, on a 16-bit `int`, sets level 100 and duration 2. -/
theorem beSmartString_fields_witness :
    ' ' ∉ "servo1".data ∧ ':' ∉ "servo1".data ∧ ':' ∉ "100".data ∧
      (beSmartString (init (EX_Servo.new IntWidth.w16 "servo" 9 50 false 1000 0 180 0)).1
        ("servo1" ++ " " ++ "100" ++ ":" ++ "2")).1.m_nCurrentLevel = 100 ∧
      (beSmartString (init (EX_Servo.new IntWidth.w16 "servo" 9 50 false 1000 0 180 0)).1
        ("servo1" ++ " " ++ "100" ++ ":" ++ "2")).1.m_nCurrentDuration = 2 :=
  ⟨by decide, by decide, by decide,
    (beSmartString_fields (init (EX_Servo.new IntWidth.w16 "servo" 9 50 false 1000 0 180 0)).1
      "servo1" "100" "2" (by decide) (by decide) (by decide)).2.1,
    (beSmartString_fields (init (EX_Servo.new IntWidth.w16 "servo" 9 50 false 1000 0 180 0)).1
      "servo1" "100" "2" (by decide) (by decide) (by decide)).2.2.1⟩

/-- C19: on any constructed object, once `init` has completed, and after any
further operations, a `beSmart` command with any level and duration starts its
motion cycle with both `oldAngle` and the clamped `targetAngle` in 0..180, and
every angle it writes lies between the two, hence in 0..180; so do all the
writes of any sequence of `beSmart` commands that follows `init`. -/
theorem beSmart_writes_in_range (w : IntWidth) (name : String) (pin : Fin 256) (startingLevel : Int)
    (detach : Bool) (servoMoveTime zeroLevelAngle benjLevelAngle currentAngle0 : Int)
    (ops : List Op) (L D : Int) :
    (0 ≤ (acceptCommand (run (init (EX_Servo.new w name pin startingLevel detach servoMoveTime
          zeroLevelAngle benjLevelAngle currentAngle0)).1 ops).1 L D).m_nOldAngle ∧
        (acceptCommand (run (init (EX_Servo.new w name pin startingLevel detach servoMoveTime
          zeroLevelAngle benjLevelAngle currentAngle0)).1 ops).1 L D).m_nOldAngle ≤ 180) ∧
      (0 ≤ (clampTarget (acceptCommand (run (init (EX_Servo.new w name pin startingLevel detach
          servoMoveTime zeroLevelAngle benjLevelAngle currentAngle0)).1 ops).1 L D)).m_nTargetAngle ∧
        (clampTarget (acceptCommand (run (init (EX_Servo.new w name pin startingLevel detach
          servoMoveTime zeroLevelAngle benjLevelAngle currentAngle0)).1 ops).1 L D)).m_nTargetAngle
            ≤ 180) ∧
      (∀ a ∈ writes (beSmart (run (init (EX_Servo.new w name pin startingLevel detach servoMoveTime
          zeroLevelAngle benjLevelAngle currentAngle0)).1 ops).1 L D).2,
        (min (acceptCommand (run (init (EX_Servo.new w name pin startingLevel detach servoMoveTime
              zeroLevelAngle benjLevelAngle currentAngle0)).1 ops).1 L D).m_nOldAngle
            (clampTarget (acceptCommand (run (init (EX_Servo.new w name pin startingLevel detach
              servoMoveTime zeroLevelAngle benjLevelAngle currentAngle0)).1 ops).1 L D)).m_nTargetAngle
              ≤ a ∧
          a ≤ max (acceptCommand (run (init (EX_Servo.new w name pin startingLevel detach
              servoMoveTime zeroLevelAngle benjLevelAngle currentAngle0)).1 ops).1 L D).m_nOldAngle
            (clampTarget (acceptCommand (run (init (EX_Servo.new w name pin startingLevel detach
              servoMoveTime zeroLevelAngle benjLevelAngle currentAngle0)).1 ops).1 L D)).m_nTargetAngle)
          ∧ 0 ≤ a ∧ a ≤ 180) ∧
      (∀ cmds : List (Int × Int),
        ∀ a ∈ writes (run (init (EX_Servo.new w name pin startingLevel detach servoMoveTime
            zeroLevelAngle benjLevelAngle currentAngle0)).1
            (cmds.map (fun c => Op.beSmart c.1 c.2))).2,
          0 ≤ a ∧ a ≤ 180) := by
  have h0 := writeAngleToPin_target_range (EX_Servo.new w name pin startingLevel detach
    servoMoveTime zeroLevelAngle benjLevelAngle currentAngle0)
  rw [← init_fst] at h0
  generalize (init (EX_Servo.new w name pin startingLevel detach servoMoveTime zeroLevelAngle
    benjLevelAngle currentAngle0)).1 = s0 at h0
  have hs := run_target_range s0 ops h0
  have hold : (acceptCommand (run s0 ops).1 L D).m_nOldAngle = (run s0 ops).1.m_nTargetAngle := rfl
  have hc := clampTarget_range (acceptCommand (run s0 ops).1 L D)
  refine ⟨by rw [hold]; exact hs, hc, ?_, ?_⟩
  · intro a ha
    rw [beSmart_writes] at ha
    have hb := writeAngleToPin_writes_between _ a ha
    rw [hold] at hb ⊢
    refine ⟨hb, ?_, ?_⟩ <;> omega
  · intro cmds
    exact cmds_writes_in_range s0 h0 cmds

/-- C20: for configured angles `zeroLevelAngle`, `benjLevelAngle` in 0..180 and
a level `L` in 0..100 the mapped angle lies between the two configured angles,
hence in 0..180; the clamp of the motion cycle leaves it unchanged, so after
the constructor and `init`, and after a `beSmart` command, `targetAngle` is
the mapped angle and the report carries exactly that angle. -/
theorem map_in_range (z b L : Int) (hz : 0 ≤ z ∧ z ≤ 180) (hb : 0 ≤ b ∧ b ≤ 180)
    (hL : 0 ≤ L ∧ L ≤ 100) :
    (min z b ≤ z + (L * (b - z)).tdiv 100 ∧ z + (L * (b - z)).tdiv 100 ≤ max z b) ∧
      (0 ≤ map L 0 100 z b ∧ map L 0 100 z b ≤ 180) ∧
      (∀ (w : IntWidth) (name : String) (pin : Fin 256) (detach : Bool) (ms c0 : Int),
        (clampTarget (EX_Servo.new w name pin L detach ms z b c0)).m_nTargetAngle =
            z + (L * (b - z)).tdiv 100 ∧
          (init (EX_Servo.new w name pin L detach ms z b c0)).1.m_nTargetAngle =
            z + (L * (b - z)).tdiv 100 ∧
          sends (init (EX_Servo.new w name pin L detach ms z b c0)).2 =
            [name ++ " " ++ toString L ++ ":" ++ toString (z + (L * (b - z)).tdiv 100) ++ ":" ++
              toString (ms.tdiv 1000)]) ∧
      (∀ (s : EX_Servo) (D : Int), s.m_nZeroLevelAngle = z → s.m_nBenjLevelAngle = b →
        (clampTarget (acceptCommand s L D)).m_nTargetAngle = z + (L * (b - z)).tdiv 100 ∧
          (beSmart s L D).1.m_nTargetAngle = z + (L * (b - z)).tdiv 100 ∧
          sends (beSmart s L D).2 =
            [s.name ++ " " ++ toString L ++ ":" ++ toString (z + (L * (b - z)).tdiv 100) ++ ":" ++
              toString D]) := by
  have hm := map_between L z b hL
  have hr : 0 ≤ map L 0 100 z b ∧ map L 0 100 z b ≤ 180 := by omega
  have hclamp : max 0 (min 180 (map L 0 100 z b)) = map L 0 100 z b := by omega
  have hwrap : ∀ w : IntWidth, wrapInt w (map L 0 100 z b) = map L 0 100 z b :=
    fun w => wrapInt_small w _ (by omega) (by omega)
  have hml := map_level L z b
  refine ⟨by rw [← hml]; exact hm, hr, ?_, ?_⟩
  · intro w name pin detach ms c0
    have h1 : (clampTarget (EX_Servo.new w name pin L detach ms z b c0)).m_nTargetAngle =
        z + (L * (b - z)).tdiv 100 := by
      rw [clampTarget_value]
      simp only [EX_Servo.new]
      rw [hwrap, hclamp, hml]
    refine ⟨h1, ?_, ?_⟩
    · rw [init_fst, writeAngleToPin_fst]
      exact h1
    · rw [init_sends, init_fst, writeAngleToPin_fst]
      simp only [refresh, sends, h1]
      rfl
  · intro s D hsz hsb
    have h1 : (clampTarget (acceptCommand s L D)).m_nTargetAngle =
        z + (L * (b - z)).tdiv 100 := by
      rw [clampTarget_value]
      simp only [acceptCommand, hsz, hsb]
      rw [hwrap, hclamp, hml]
    refine ⟨h1, ?_, ?_⟩
    · rw [beSmart_fst, writeAngleToPin_fst]
      exact h1
    · rw [beSmart_sends, beSmart_fst, writeAngleToPin_fst]
      simp only [refresh, sends, h1]
      rfl

/-- The angles 0 and 180 with level 50: the mapped angle is 90, which the
clamp leaves unchanged and `init` reports. -/
theorem map_in_range_witness :
    (0 ≤ map 50 0 100 0 180 ∧ map 50 0 100 0 180 ≤ 180) ∧
      (init (EX_Servo.new IntWidth.w16 "servo" 9 50 false 1000 0 180 0)).1.m_nTargetAngle =
        0 + (50 * (180 - 0 : Int)).tdiv 100 :=
  ⟨(map_in_range 0 180 50 (by decide) (by decide) (by decide)).2.1,
    ((map_in_range 0 180 50 (by decide) (by decide) (by decide)).2.2.1
      IntWidth.w16 "servo" 9 false 1000 0).2.1⟩

end st
